import Mathlib

/-!
Verification development for the backup-log module (`backup-log.c`):
an append-only transition log with a record codec (`bkl_append` /
`bkl_parse_entry`), a forward line reader (`bkl_parse_file`) and a
bounded-memory reverse line reader (`bkl_parse_file_reverse`).

File contents and lines are modelled as `List Char` (one `Char` per byte);
the C buffers are NUL-terminated, which is modelled by the read function
`getC` returning the NUL character out of range.  Object ids are modelled
as their 20 raw bytes (`List Nat`, each `< 256`).  Callbacks are modelled
as state-transforming functions `List Char → σ → Int × σ`; the readers
additionally return the list of lines handed to the callback, in call
order, together with the C return value and (for the reverse reader) the
leftover fragment buffer that the source checks against `BUG(...)`.
-/

namespace BackupLog

/-- The NUL byte, which terminates C strings. -/
def NUL : Char := Char.ofNat 0

/-- Read a byte of a NUL-terminated buffer: out-of-range reads yield NUL,
matching the strbuf invariant `buf[len] == '\0'`. -/
def getC (l : List Char) (i : Nat) : Char := l.getD i NUL

/-- `buf[a..b)` as a list. -/
def slice (l : List Char) (a b : Nat) : List Char := (l.drop a).take (b - a)

/-- C `isdigit` for the chars of interest. -/
def isDigitC (c : Char) : Bool := '0' ≤ c && c ≤ '9'

/-- C `isspace` (C locale): space, tab, newline, vertical tab, form feed,
carriage return. -/
def isSpaceC (c : Char) : Bool :=
  c = ' ' || c = '\t' || c = '\n' || c = Char.ofNat 11 || c = Char.ofNat 12 || c = '\r'

/-- The hex digit table of `hex.c`. -/
def hexTable : List Char := "0123456789abcdef".toList

/-- Low nibble to hex character. -/
def hexCharOfNibble (n : Nat) : Char := hexTable.getD n '0'

/-- `hexval`: value of a hex digit character, `none` for anything else. -/
def hexval (c : Char) : Option Nat :=
  if '0' ≤ c ∧ c ≤ '9' then some (c.toNat - '0'.toNat)
  else if 'a' ≤ c ∧ c ≤ 'f' then some (c.toNat - 'a'.toNat + 10)
  else if 'A' ≤ c ∧ c ≤ 'F' then some (c.toNat - 'A'.toNat + 10)
  else none

/-- Raw byte width of an object id (SHA-1). -/
def GIT_SHA1_RAWSZ : Nat := 20

/-- Hex character width of an object id. -/
def GIT_SHA1_HEXSZ : Nat := 40

/-- `oid_to_hex`: the 2·rawsz lowercase hex characters of the raw bytes. -/
def oid_to_hex (o : List Nat) : List Char :=
  (o.map (fun b => [hexCharOfNibble (b / 16), hexCharOfNibble (b % 16)])).flatten

/-- `hex_to_bytes`-style parsing: consume `k` byte pairs from the front of a
NUL-terminated buffer.  A missing or non-hex character fails, exactly as the
C loop fails on the terminator or on a non-hex byte. -/
def hex_to_bytes : List Char → Nat → Option (List Nat)
  | _, 0 => some []
  | c1 :: c2 :: rest, k + 1 =>
    match hexval c1, hexval c2, hex_to_bytes rest k with
    | some hi, some lo, some bs => some ((16 * hi + lo) :: bs)
    | _, _, _ => none
  | _, _ + 1 => none

/-- Scan of `strchr`, walking the remaining characters; `off` is the
absolute index of the head of the remaining list.  The end of the list is
the implicit NUL terminator (not equal to the searched character). -/
def strchrFrom : List Char → Char → Nat → Option Nat
  | [], _, _ => none
  | x :: xs, c, off =>
    if x = c then some off
    else if x = NUL then none
    else strchrFrom xs c (off + 1)

/-- `strchr(buf + off, c)` on a NUL-terminated buffer: index of the first
occurrence of `c` at or after `off`, stopping (with `none`) at the first
NUL, including the implicit terminator at the end of the list. -/
def strchrIdx (l : List Char) (c : Char) (off : Nat) : Option Nat :=
  strchrFrom (l.drop off) c off

/-- Whitespace skip over the remaining characters, `i` the absolute index
of the head (the terminating NUL is not a space). -/
def skipFrom : List Char → Nat → Nat
  | [], i => i
  | x :: xs, i => if isSpaceC x then skipFrom xs (i + 1) else i

/-- Index of the first non-space character at or after `i` (the leading
whitespace skip of `strtoumax`/`strtol`). -/
def skipSpaces (l : List Char) (i : Nat) : Nat :=
  skipFrom (l.drop i) i

/-- Digit-run scan over the remaining characters, `i` the absolute index
of the head (the terminating NUL is not a digit). -/
def digitsFrom : List Char → Nat → Nat
  | [], i => i
  | x :: xs, i => if isDigitC x then digitsFrom xs (i + 1) else i

/-- End of the maximal digit run starting at `i`. -/
def digitRunEnd (l : List Char) (i : Nat) : Nat :=
  digitsFrom (l.drop i) i

/-- Numeric value of a digit string. -/
def natOfDigits (ds : List Char) : Nat :=
  ds.foldl (fun a c => a * 10 + (c.toNat - '0'.toNat)) 0

/-- 2^64, one more than `UINTMAX_MAX`. -/
def UINTMAX_BOUND : Nat := 2 ^ 64

/-- `LONG_MAX` (64-bit long). -/
def LONG_MAX : Int := 2 ^ 63 - 1

/-- `LONG_MIN` (64-bit long). -/
def LONG_MIN : Int := -(2 ^ 63)

/-- `parse_timestamp` = `strtoumax(nptr, &end, 10)`: skip whitespace, accept
an optional sign, then a digit run; with no digits the result is `0` and the
end pointer is reset to the original start.  Overflow yields `UINTMAX_MAX`;
a minus sign negates in the unsigned type.  Returns (value, end index). -/
def strtoumax10 (l : List Char) (start : Nat) : Nat × Nat :=
  let i := skipSpaces l start
  let neg := getC l i = '-'
  let j := if getC l i = '-' ∨ getC l i = '+' then i + 1 else i
  let k := digitRunEnd l j
  if k = j then (0, start)
  else
    let v := natOfDigits (slice l j k)
    if UINTMAX_BOUND ≤ v then (UINTMAX_BOUND - 1, k)
    else if neg then ((UINTMAX_BOUND - v) % UINTMAX_BOUND, k)
    else (v, k)

/-- `strtol(nptr, NULL, 10)` (value only): skip whitespace, optional sign,
digit run; clamped to the 64-bit `long` range. -/
def strtol10 (l : List Char) (start : Nat) : Int :=
  let i := skipSpaces l start
  let neg := getC l i = '-'
  let j := if getC l i = '-' ∨ getC l i = '+' then i + 1 else i
  let k := digitRunEnd l j
  if k = j then 0
  else
    let v : Int := (natOfDigits (slice l j k) : Int)
    if neg then max LONG_MIN (-v) else min LONG_MAX v

/-- The C string starting at offset `i` of a buffer (up to the first NUL). -/
def cstringAt (l : List Char) (i : Nat) : List Char :=
  (l.drop i).takeWhile (fun c => ¬ c = NUL)

/-- `struct bkl_entry`.  `email` and `path` are the C strings the returned
pointers denote inside the mutated line buffer. -/
structure bkl_entry where
  old_oid : List Nat
  new_oid : List Nat
  email : List Char
  timestamp : Nat
  tz : Int
  path : List Char
deriving Repr, DecidableEq

/-- One encoded record line:
`<old-hex> SP <new-hex> SP <committer-info> TAB <path> LF`. -/
def bkl_line (path : List Char) (from_oid to_oid : List Nat)
    (committer : List Char) : List Char :=
  oid_to_hex from_oid ++ ' ' :: (oid_to_hex to_oid ++ ' ' :: (committer ++ '\t' :: (path ++ ['\n'])))

/-- `bkl_append`: contribute nothing when the ids are equal (`oideq`),
otherwise append the encoded line to the output strbuf.
`committer` stands for the string `git_committer_info(0)` returns. -/
def bkl_append (output : List Char) (path : List Char)
    (from_oid to_oid : List Nat) (committer : List Char) : List Char :=
  if from_oid = to_oid then output
  else output ++ bkl_line path from_oid to_oid committer

/-- `bkl_parse_entry`: decode one line.  On success the C code overwrites
`email_end[1]` and the final LF with NUL in place; the model returns the
mutated buffer together with the entry, whose `email`/`path` fields are the
C strings at the corresponding offsets of that mutated buffer.  `none` is
the `-1` (corrupt) return. -/
def bkl_parse_entry (sb : List Char) : Option (List Char × bkl_entry) :=
  let n := sb.length
  if n = 0 then none
  else if ¬ getC sb (n - 1) = '\n' then none
  else match hex_to_bytes sb GIT_SHA1_RAWSZ with
  | none => none
  | some old_oid =>
    if ¬ getC sb GIT_SHA1_HEXSZ = ' ' then none
    else match hex_to_bytes (sb.drop (GIT_SHA1_HEXSZ + 1)) GIT_SHA1_RAWSZ with
    | none => none
    | some new_oid =>
      if ¬ getC sb (2 * GIT_SHA1_HEXSZ + 1) = ' ' then none
      else match strchrIdx sb '>' (2 * GIT_SHA1_HEXSZ + 2) with
      | none => none
      | some email_end =>
        if ¬ getC sb (email_end + 1) = ' ' then none
        else
          let ts := (strtoumax10 sb (email_end + 2)).1
          let message := (strtoumax10 sb (email_end + 2)).2
          if ts = 0 then none
          else if ¬ getC sb message = ' ' then none
          else if ¬ (getC sb (message + 1) = '+' ∨ getC sb (message + 1) = '-') then none
          else if ¬ (isDigitC (getC sb (message + 2)) ∧ isDigitC (getC sb (message + 3)) ∧
                     isDigitC (getC sb (message + 4)) ∧ isDigitC (getC sb (message + 5))) then none
          else
            let buf1 := sb.set (email_end + 1) NUL
            let tz := strtol10 buf1 (message + 1)
            let msg2 := if ¬ getC buf1 (message + 6) = '\t' then message + 6 else message + 7
            let buf2 := buf1.set (n - 1) NUL
            some (buf2,
              { old_oid := old_oid
                new_oid := new_oid
                email := cstringAt buf2 (2 * GIT_SHA1_HEXSZ + 2)
                timestamp := ts
                tz := tz
                path := cstringAt buf2 msg2 })

/-! ## Forward reader -/

/-- One `strbuf_getwholeline(sb, fp, '\n')` on the remaining file content:
the first line up to and including its LF (or up to EOF), and the rest. -/
def splitLine : List Char → List Char × List Char
  | [] => ([], [])
  | x :: xs =>
    if x = '\n' then ([x], xs)
    else ((x :: (splitLine xs).1), (splitLine xs).2)

theorem splitLine_snd_length : ∀ c : List Char, c ≠ [] → (splitLine c).2.length < c.length := by
  intro c hc
  induction c with
  | nil => exact absurd rfl hc
  | cons x xs ih =>
    by_cases hx : x = '\n'
    · simp [splitLine, hx]
    · simp only [splitLine, if_neg hx]
      rcases xs with - | ⟨y, ys⟩
      · simp [splitLine]
      · exact Nat.lt_trans (ih (by simp)) (by simp)

/-- The read loop of `bkl_parse_file`: feed each line to the callback until
EOF or a nonzero callback result.  Returns (ret, final state, lines fed).
The loop is driven by a fuel counter: every iteration consumes at least one
character, so with `c.length ≤ fuel` the zero-fuel row is only reached at
EOF and coincides with the EOF exit of the loop. -/
def fwdLoop {σ : Type} (f : List Char → σ → Int × σ) : Nat → List Char → σ →
    Int × σ × List (List Char)
  | 0, _, s => (0, s, [])
  | fuel + 1, c, s =>
    if c = [] then (0, s, [])
    else
      let l := (splitLine c).1
      let r := (splitLine c).2
      let res := f l s
      if res.1 ≠ 0 then (res.1, res.2, [l])
      else
        let rest := fwdLoop f fuel r res.2
        (rest.1, rest.2.1, l :: rest.2.2)

/-- `bkl_parse_file`: a missing file (`fopen` fails with `ENOENT`/`ENOTDIR`,
modelled as `none`) is success with no callback calls; otherwise run the
line loop over the file content. -/
def bkl_parse_file {σ : Type} (file : Option (List Char))
    (f : List Char → σ → Int × σ) (s : σ) : Int × σ × List (List Char) :=
  match file with
  | none => (0, s, [])
  | some c => fwdLoop f c.length c s

/-- The LF-delimited lines of a file content, oldest first, each including
its LF except possibly the last. -/
def forwardLines : List Char → List (List Char)
  | [] => []
  | x :: xs =>
    if x = '\n' then ['\n'] :: forwardLines xs
    else
      match forwardLines xs with
      | [] => [[x]]
      | l :: ls => (x :: l) :: ls

/-! ## Reverse reader -/

/-- `find_beginning_of_line`: scan backwards from `scan` (exclusive) down to
`bob`, returning either the index of the LF ending the previous line, or
`bob`. -/
def find_beginning_of_line (buf : List Char) (bob : Nat) : Nat → Nat
  | 0 => 0
  | scan + 1 =>
    if bob < scan + 1 then
      if getC buf scan = '\n' then scan
      else find_beginning_of_line buf bob scan
    else scan + 1

theorem find_beginning_of_line_le (buf : List Char) :
    ∀ scan, find_beginning_of_line buf 0 scan ≤ scan := by
  intro scan
  induction scan with
  | zero => simp [find_beginning_of_line]
  | succ n ih =>
    rw [find_beginning_of_line]
    rw [if_pos (Nat.zero_lt_succ n)]
    by_cases hlf : getC buf n = '\n'
    · simp [hlf]
    · simp only [if_neg hlf]
      exact Nat.le_trans ih (Nat.le_succ n)

/-- The inner `while (buf < scanp)` loop of `bkl_parse_file_reverse`,
operating on one block `buf`.  `pos` is the remaining file prefix length,
`sb` the carried fragment.  Returns (ret, fragment, state, lines fed to the
callback in call order).  The loop is driven by a fuel counter bounding
`scanp` (each iteration strictly decreases `scanp`); with `scanp ≤ fuel`
the zero-fuel row is reached only at `scanp = 0` and coincides with the
`while` condition failing. -/
def revInner {σ : Type} (f : List Char → σ → Int × σ) (buf : List Char) (pos : Nat) :
    Nat → Nat → Nat → List Char → σ → Int × List Char × σ × List (List Char)
  | 0, _, _, sb, s => (0, sb, s, [])
  | fuel + 1, scanp, endp, sb, s =>
    if 0 < scanp then
      let bp := find_beginning_of_line buf 0 scanp
      if getC buf bp = '\n' then
        -- complete line starting at bp+1; prepend carried data and process it
        let line := slice buf (bp + 1) endp ++ sb
        let res := f line s
        if res.1 ≠ 0 then (res.1, [], res.2, [line])
        else if bp = 0 then
          -- bp == buf: save remaining bytes (the LF itself) and leave the loop
          (0, slice buf 0 (bp + 1), res.2, [line])
        else
          let rest := revInner f buf pos fuel bp (bp + 1) [] res.2
          (rest.1, rest.2.1, rest.2.2.1, line :: rest.2.2.2)
      else if pos = 0 then
        -- start of buffer and start of file: everything left is the last line
        let line := slice buf 0 endp ++ sb
        let res := f line s
        (res.1, [], res.2, [line])
      else
        -- start of buffer, more file to read: save what we have
        -- (`find_beginning_of_line` returned `buf`, i.e. index 0, here)
        (0, slice buf 0 endp ++ sb, s, [])
    else (0, sb, s, [])

/-- The outer block loop of `bkl_parse_file_reverse`, parametrized by the
read block size (`sizeof(buf)`, i.e. `BUFSIZ` in the source).  The fuel
counter bounds `pos`; each iteration strictly decreases `pos`, so with
`pos ≤ fuel` the zero-fuel row is reached only at `pos = 0` and coincides
with the `while` condition failing. -/
def revOuter {σ : Type} (f : List Char → σ → Int × σ) (c : List Char) (bs : Nat) :
    Nat → Nat → Bool → List Char → σ → Int × List Char × σ × List (List Char)
  | 0, _, _, sb, s => (0, sb, s, [])
  | fuel + 1, pos, a_tail, sb, s =>
    if 0 < pos then
      let cnt := min bs pos
      if cnt = 0 then
        -- fread(buf, 0, 1, fp) returns 0 != 1: the read-error path
        (-1, sb, s, [])
      else
        let buf := slice c (pos - cnt) pos
        let scanp0 := if a_tail ∧ getC buf (cnt - 1) = '\n' then cnt - 1 else cnt
        let inr := revInner f buf (pos - cnt) scanp0 scanp0 cnt sb s
        if inr.1 ≠ 0 then inr
        else
          let rest := revOuter f c bs fuel (pos - cnt) false inr.2.1 inr.2.2.1
          (rest.1, rest.2.1, rest.2.2.1, inr.2.2.2 ++ rest.2.2.2)
    else (0, sb, s, [])

/-- The stdio buffer size used as the read block size in the source. -/
def BUFSIZ : Nat := 8192

/-- `bkl_parse_file_reverse` with an explicit block size: a missing file is
success with no callback calls; otherwise scan the content backwards from
its end.  Returns (ret, leftover fragment, state, lines fed).  The source
ends with `if (!ret && sb.len) BUG("reverse reflog parser had leftover
data")`: that condition is `ret = 0 ∧ leftover ≠ []` on the result. -/
def bkl_parse_file_reverse_sized {σ : Type} (bs : Nat) (file : Option (List Char))
    (f : List Char → σ → Int × σ) (s : σ) : Int × List Char × σ × List (List Char) :=
  match file with
  | none => (0, [], s, [])
  | some c => revOuter f c bs c.length c.length true [] s

/-- `bkl_parse_file_reverse` as in the source, with block size `BUFSIZ`. -/
def bkl_parse_file_reverse {σ : Type} (file : Option (List Char))
    (f : List Char → σ → Int × σ) (s : σ) : Int × List Char × σ × List (List Char) :=
  bkl_parse_file_reverse_sized BUFSIZ file f s

/-! ## Pure list layer: lines of a buffer, last/first LF positions -/

/-- Split a buffer after each LF; the carry `sb` is appended to the final
(possibly empty) unterminated segment.  This describes which lines a file
prefix contributes when a fragment `sb` is already carried for its last,
incomplete line. -/
def linesWithCarry : List Char → List Char → List (List Char)
  | [], sb => [sb]
  | x :: xs, sb =>
    if x = '\n' then ['\n'] :: linesWithCarry xs sb
    else
      match linesWithCarry xs sb with
      | [] => [[x]]
      | l :: ls => (x :: l) :: ls

theorem linesWithCarry_ne_nil (P sb : List Char) : linesWithCarry P sb ≠ [] := by
  cases P with
  | nil => simp [linesWithCarry]
  | cons x xs =>
    by_cases hx : x = '\n'
    · simp [linesWithCarry, hx]
    · simp only [linesWithCarry, if_neg hx]
      cases linesWithCarry xs sb <;> simp

/-- A buffer with no LF contributes a single line. -/
theorem linesWithCarry_no_lf (P sb : List Char) (h : '\n' ∉ P) :
    linesWithCarry P sb = [P ++ sb] := by
  induction P with
  | nil => simp [linesWithCarry]
  | cons x xs ih =>
    have hx : ¬ x = '\n' := fun hc => h (hc ▸ List.mem_cons_self x xs)
    have hxs : '\n' ∉ xs := fun hc => h (List.mem_cons_of_mem x hc)
    simp only [linesWithCarry, if_neg hx, ih hxs, List.cons_append]

/-- An LF-free block appended to the buffer can be moved into the carry. -/
theorem linesWithCarry_append_no_lf (U B sb : List Char) (h : '\n' ∉ B) :
    linesWithCarry (U ++ B) sb = linesWithCarry U (B ++ sb) := by
  induction U with
  | nil => simp [linesWithCarry, linesWithCarry_no_lf B sb h]
  | cons x xs ih =>
    by_cases hx : x = '\n'
    · simp only [List.cons_append, linesWithCarry, if_pos hx, List.append_eq, ih]
    · simp only [List.cons_append, linesWithCarry, if_neg hx, List.append_eq, ih]

/-- Splitting at an explicit LF: the part before it (closed by the LF)
contributes its own lines, the part after it is a fresh buffer. -/
theorem linesWithCarry_append_lf (U W sb : List Char) :
    linesWithCarry (U ++ '\n' :: W) sb = linesWithCarry U ['\n'] ++ linesWithCarry W sb := by
  induction U with
  | nil => simp [linesWithCarry]
  | cons x xs ih =>
    by_cases hx : x = '\n'
    · simp only [List.cons_append, linesWithCarry, if_pos hx, List.append_eq, ih,
        List.cons_append]
    · simp only [List.cons_append, linesWithCarry, if_neg hx, List.append_eq, ih]
      rcases hne : linesWithCarry xs ['\n'] with - | ⟨l, ls⟩
      · exact absurd hne (linesWithCarry_ne_nil xs ['\n'])
      · simp [hne]

/-- Index of the last LF of a buffer, if any. -/
def lastLFIdx : List Char → Option Nat
  | [] => none
  | x :: xs =>
    match lastLFIdx xs with
    | some i => some (i + 1)
    | none => if x = '\n' then some 0 else none

/-- Index of the first LF of a buffer, if any. -/
def firstLFIdx : List Char → Option Nat
  | [] => none
  | x :: xs => if x = '\n' then some 0 else (firstLFIdx xs).map (· + 1)

theorem lastLFIdx_eq_none_iff (R : List Char) : lastLFIdx R = none ↔ '\n' ∉ R := by
  induction R with
  | nil => simp [lastLFIdx]
  | cons x xs ih =>
    simp only [lastLFIdx]
    rcases h : lastLFIdx xs with - | i
    · have hmem := ih.mp h
      by_cases hx : x = '\n' <;> simp [hx, hmem, eq_comm]
    · have : '\n' ∈ xs := by
        by_contra hmem
        rw [ih.mpr hmem] at h; exact Option.noConfusion h
      simp [this]

theorem firstLFIdx_eq_none_iff (R : List Char) : firstLFIdx R = none ↔ '\n' ∉ R := by
  induction R with
  | nil => simp [firstLFIdx]
  | cons x xs ih =>
    simp only [firstLFIdx]
    by_cases hx : x = '\n'
    · simp [hx]
    · rcases h : firstLFIdx xs with - | i <;>
        simp_all [eq_comm (a := x) (b := '\n')]

theorem lastLFIdx_spec (R : List Char) (i : Nat) (h : lastLFIdx R = some i) :
    i < R.length ∧ getC R i = '\n' ∧ '\n' ∉ R.drop (i + 1) := by
  induction R generalizing i with
  | nil => exact Option.noConfusion h
  | cons x xs ih =>
    simp only [lastLFIdx] at h
    rcases hxs : lastLFIdx xs with - | j
    · rw [hxs] at h
      by_cases hx : x = '\n'
      · rw [if_pos hx] at h
        cases h
        refine ⟨by simp, by simp [hx, getC], ?_⟩
        simpa using (lastLFIdx_eq_none_iff xs).mp hxs
      · rw [if_neg hx] at h; exact Option.noConfusion h
    · rw [hxs] at h
      cases h
      obtain ⟨h1, h2, h3⟩ := ih j hxs
      exact ⟨by simpa using h1, by simpa using h2, by simpa using h3⟩

theorem firstLFIdx_spec (R : List Char) (i : Nat) (h : firstLFIdx R = some i) :
    i < R.length ∧ getC R i = '\n' ∧ '\n' ∉ R.take i := by
  induction R generalizing i with
  | nil => exact Option.noConfusion h
  | cons x xs ih =>
    simp only [firstLFIdx] at h
    by_cases hx : x = '\n'
    · rw [if_pos hx] at h
      cases h
      exact ⟨by simp, by simp [getC, hx], by simp⟩
    · rw [if_neg hx] at h
      rcases hxs : firstLFIdx xs with - | j
      · rw [hxs] at h; exact Option.noConfusion h
      · rw [hxs] at h
        cases h
        obtain ⟨h1, h2, h3⟩ := ih j hxs
        refine ⟨by simpa using h1, by simpa using h2, ?_⟩
        intro hmem
        rcases List.mem_cons.mp (by simpa using hmem) with hh | hh
        · exact hx hh.symm
        · exact h3 hh

theorem lastLFIdx_append_singleton (xs : List Char) (x : Char) :
    lastLFIdx (xs ++ [x]) = if x = '\n' then some xs.length else lastLFIdx xs := by
  induction xs with
  | nil => by_cases hx : x = '\n' <;> simp [lastLFIdx, hx]
  | cons y ys ih =>
    by_cases hx : x = '\n'
    · simp only [if_pos hx] at ih ⊢
      simp [lastLFIdx, ih]
    · simp only [if_neg hx] at ih ⊢
      simp only [List.cons_append, lastLFIdx, List.append_eq, ih]

/-- Decompose a list at a known element. -/
theorem eq_take_cons_drop {α : Type} (l : List α) (i : Nat) (h : i < l.length) :
    l = l.take i ++ l[i] :: l.drop (i + 1) := by
  conv_lhs => rw [← List.take_append_drop i l]
  rw [List.drop_eq_getElem_cons h]

/-! ## Indexing helpers -/

theorem getC_of_len_le (l : List Char) (i : Nat) (h : l.length ≤ i) : getC l i = NUL :=
  List.getD_eq_default _ _ h

theorem getC_eq_getElem (l : List Char) (i : Nat) (h : i < l.length) : getC l i = l[i] :=
  List.getD_eq_getElem _ _ h

theorem getC_take (l : List Char) (n i : Nat) (h : i < n) : getC (l.take n) i = getC l i := by
  by_cases hi : i < l.length
  · rw [getC_eq_getElem _ _ hi, getC_eq_getElem _ _ (by simp [List.length_take]; omega)]
    simp
  · rw [getC_of_len_le _ _ (Nat.le_of_not_lt hi),
      getC_of_len_le _ _ (by simp [List.length_take]; omega)]

theorem getC_drop (l : List Char) (a i : Nat) : getC (l.drop a) i = getC l (a + i) := by
  by_cases hi : a + i < l.length
  · rw [getC_eq_getElem _ _ hi, getC_eq_getElem _ _ (by simp; omega)]
    simp [List.getElem_drop]
  · rw [getC_of_len_le _ _ (Nat.le_of_not_lt (by simp; omega)),
      getC_of_len_le _ _ (Nat.le_of_not_lt hi)]

theorem getC_append_left (a b : List Char) (i : Nat) (h : i < a.length) :
    getC (a ++ b) i = getC a i :=
  List.getD_append _ _ _ _ h

theorem getC_append_right (a b : List Char) (i : Nat) :
    getC (a ++ b) (a.length + i) = getC b i := by
  rw [getC, List.getD_append_right _ _ _ _ (Nat.le_add_right _ _)]
  simp [getC]

theorem getC_mem (l : List Char) (h : l ≠ []) : getC l 0 ∈ l := by
  rw [getC_eq_getElem _ _ (by cases l with | nil => exact absurd rfl h | cons => simp)]
  exact List.getElem_mem _

theorem slice_length (l : List Char) (a b : Nat) :
    (slice l a b).length = min (b - a) (l.length - a) := by
  simp [slice]

theorem slice_zero (l : List Char) (b : Nat) : slice l 0 b = l.take b := by
  simp [slice]

theorem slice_split (l : List Char) (a m b : Nat) (h1 : a ≤ m) (h2 : m ≤ b) :
    slice l a b = slice l a m ++ slice l m b := by
  unfold slice
  have hb : b - a = (m - a) + (b - m) := by omega
  rw [hb, List.take_add, List.drop_drop]
  have hm : a + (m - a) = m := by omega
  rw [hm]

theorem take_eq_append_slice (l : List Char) (a b : Nat) (h : a ≤ b) :
    l.take b = l.take a ++ slice l a b := by
  have hb : b = a + (b - a) := by omega
  conv_lhs => rw [hb]
  rw [List.take_add]
  rfl

theorem slice_singleton (l : List Char) (i : Nat) (h : i < l.length) :
    slice l i (i + 1) = [getC l i] := by
  unfold slice
  rw [getC_eq_getElem _ _ h]
  have hd := List.drop_eq_getElem_cons (l := l) (n := i) h
  rw [hd]
  have h1 : i + 1 - i = 1 := by omega
  rw [h1]
  rfl

theorem take_drop_eq_slice (l : List Char) (n m : Nat) :
    (l.take n).drop m = slice l m n := by
  rw [List.drop_take]
  rfl

theorem take_take_eq (l : List Char) (n m : Nat) (h : m ≤ n) :
    (l.take n).take m = l.take m := by
  rw [List.take_take]
  simp [Nat.min_eq_left h]

theorem getC_slice (l : List Char) (a b i : Nat) (h : i < b - a) :
    getC (slice l a b) i = getC l (a + i) := by
  unfold slice
  rw [getC_take _ _ _ h, getC_drop]

/-! ## Characterizing `find_beginning_of_line` -/

theorem fbol_eq (buf : List Char) :
    ∀ scanp, scanp ≤ buf.length →
    find_beginning_of_line buf 0 scanp =
      match lastLFIdx (buf.take scanp) with
      | some i => i
      | none => 0 := by
  intro scanp
  induction scanp with
  | zero => intro _; simp [find_beginning_of_line, lastLFIdx]
  | succ n ih =>
    intro hlen
    have hn : n < buf.length := hlen
    rw [find_beginning_of_line]
    rw [if_pos (Nat.zero_lt_succ n)]
    have htake : buf.take (n + 1) = buf.take n ++ [buf[n]] := by
      rw [List.take_succ]
      simp [List.getElem?_eq_getElem hn]
    have hgc : getC buf n = buf[n] := getC_eq_getElem _ _ hn
    rw [htake, lastLFIdx_append_singleton]
    by_cases hlf : getC buf n = '\n'
    · rw [if_pos hlf, if_pos (by rw [← hgc]; exact hlf)]
      simp [List.length_take, Nat.min_eq_left (Nat.le_of_lt hn)]
    · rw [if_neg hlf, if_neg (by rw [← hgc]; exact hlf), ih (Nat.le_of_lt hn)]

theorem firstLFIdx_of_getC_zero (R : List Char) (hR : R ≠ []) (h : getC R 0 = '\n') :
    firstLFIdx R = some 0 := by
  cases R with
  | nil => exact absurd rfl hR
  | cons x xs =>
    simp only [getC, List.getD_cons_zero] at h
    simp [firstLFIdx, h]

theorem getC_zero_ne_of_firstLFIdx_none (R : List Char) (hR : R ≠ [])
    (h : firstLFIdx R = none) : ¬ getC R 0 = '\n' := by
  intro hc
  have hmem : getC R 0 ∈ R := getC_mem R hR
  exact (firstLFIdx_eq_none_iff R).mp h (hc ▸ hmem)

theorem getC_zero_ne_of_firstLFIdx_succ (R : List Char) (j : Nat)
    (h : firstLFIdx R = some (j + 1)) : ¬ getC R 0 = '\n' := by
  obtain ⟨h1, -, h3⟩ := firstLFIdx_spec R (j + 1) h
  intro hc
  have htne : R.take (j + 1) ≠ [] := by
    intro he
    have hlen2 := congrArg List.length he
    rw [List.length_take] at hlen2
    simp only [List.length_nil] at hlen2
    omega
  have hmem : getC (R.take (j + 1)) 0 ∈ R.take (j + 1) := getC_mem _ htne
  rw [getC_take R (j + 1) 0 (Nat.succ_pos j)] at hmem
  exact h3 (hc ▸ hmem)

theorem firstLFIdx_append_lf (U W : List Char) :
    firstLFIdx (U ++ '\n' :: W) =
      some (match firstLFIdx U with | some k => k | none => U.length) := by
  induction U with
  | nil => simp [firstLFIdx]
  | cons x xs ih =>
    by_cases hx : x = '\n'
    · simp [firstLFIdx, hx]
    · rw [List.cons_append]
      have hstep : firstLFIdx (x :: (xs ++ '\n' :: W)) =
          (firstLFIdx (xs ++ '\n' :: W)).map (· + 1) := by
        simp [firstLFIdx, hx]
      rw [hstep, ih]
      rcases hxs : firstLFIdx xs with - | k <;> simp [firstLFIdx, hx, hxs]

/-! ## The expected result of the inner scan loop -/

/-- What one run of the inner loop produces for a scan region `R`
(`buf[0..scanp)`), the already-delimited suffix `T` (`buf[scanp..endp)`),
a carried fragment `sb` and remaining file length `pos`:
(lines fed to the callback in order, fragment left in the strbuf). -/
def innerExpect (R T sb : List Char) (pos : Nat) : List (List Char) × List Char :=
  match firstLFIdx R with
  | none =>
    if R = [] then ([], sb)
    else if pos = 0 then ([R ++ T ++ sb], []) else ([], R ++ T ++ sb)
  | some 0 => ((linesWithCarry (R.drop 1) (T ++ sb)).reverse, ['\n'])
  | some (j + 1) =>
    if pos = 0 then ((linesWithCarry R (T ++ sb)).reverse, [])
    else ((linesWithCarry (R.drop (j + 2)) (T ++ sb)).reverse, R.take (j + 2))

/-- Unfolding step for the inner scan: the region's last LF at `i ≥ 1`
yields the line `R[i+1..) ++ T ++ sb` first, then the scan continues on
`R[0..i)` with the lone LF as the new suffix. -/
theorem innerExpect_step (R T sb : List Char) (pos : Nat) (i : Nat)
    (hlast : lastLFIdx R = some i) (hi : 1 ≤ i) :
    (innerExpect R T sb pos).1
        = (R.drop (i + 1) ++ (T ++ sb)) :: (innerExpect (R.take i) ['\n'] [] pos).1
    ∧ (innerExpect R T sb pos).2 = (innerExpect (R.take i) ['\n'] [] pos).2 := by
  obtain ⟨hilen, hiLF, hnoW⟩ := lastLFIdx_spec R i hlast
  have hgetElem : R[i] = '\n' := by rw [← getC_eq_getElem _ _ hilen]; exact hiLF
  have hUlen : (R.take i).length = i := by simp [List.length_take]; omega
  have hdecomp : R = R.take i ++ '\n' :: R.drop (i + 1) := by
    conv_lhs => rw [eq_take_cons_drop R i hilen]
    rw [hgetElem]
  have hW : linesWithCarry (R.drop (i + 1)) (T ++ sb) = [R.drop (i + 1) ++ (T ++ sb)] :=
    linesWithCarry_no_lf _ _ hnoW
  have hfR : firstLFIdx R =
      some (match firstLFIdx (R.take i) with | some k => k | none => i) := by
    conv_lhs => rw [hdecomp]
    rw [firstLFIdx_append_lf, hUlen]
  rcases hU : firstLFIdx (R.take i) with - | k
  · -- no LF before position i: first LF of R is at i = (i-1)+1
    obtain ⟨i', hi'⟩ : ∃ i', i = i' + 1 := ⟨i - 1, by omega⟩
    have hfR' : firstLFIdx R = some (i' + 1) := by rw [hfR, hU, hi']
    have hUne : R.take i ≠ [] := by
      intro he; rw [he] at hUlen; simp at hUlen; omega
    have hnoU : '\n' ∉ R.take i := (firstLFIdx_eq_none_iff _).mp hU
    have hlwcU : linesWithCarry (R.take i) ['\n'] = [R.take i ++ ['\n']] :=
      linesWithCarry_no_lf _ _ hnoU
    have hRdrop : R.drop (i' + 2) = R.drop (i + 1) := by rw [hi']
    have hRtake : R.take (i' + 2) = R.take i ++ ['\n'] := by
      conv_lhs => rw [hdecomp]
      have h1 : i' + 2 = (R.take i).length + 1 := by rw [hUlen]; omega
      rw [h1, List.take_append]
      rfl
    by_cases hpos : pos = 0
    · subst hpos
      simp only [innerExpect, hfR', hU, if_pos rfl, if_neg hUne]
      constructor
      · conv_lhs => rw [hdecomp]
        rw [linesWithCarry_append_lf, hW, hlwcU]
        simp
      · trivial
    · simp only [innerExpect, hfR', hU, if_neg hpos, if_neg hUne]
      rw [hRdrop, hRtake, hW]
      constructor <;> simp
  · -- first LF of R.take i at k < i: it is also the first LF of R
    have hklen : k < i := by
      have := (firstLFIdx_spec _ k hU).1
      omega
    rcases k with - | k'
    · -- k = 0: R starts with LF
      have hfR' : firstLFIdx R = some 0 := by rw [hfR, hU]
      have hRd1 : R.drop 1 = (R.take i).drop 1 ++ '\n' :: R.drop (i + 1) := by
        conv_lhs => rw [hdecomp]
        rw [List.drop_append_of_le_length (by omega)]
      simp only [innerExpect, hfR', hU]
      constructor
      · rw [hRd1, linesWithCarry_append_lf, hW]
        simp
      · trivial
    · -- k = k'+1 ≥ 1
      have hfR' : firstLFIdx R = some (k' + 1) := by rw [hfR, hU]
      have hk2 : k' + 2 ≤ i := by omega
      have hRdrop : R.drop (k' + 2) = (R.take i).drop (k' + 2) ++ '\n' :: R.drop (i + 1) := by
        conv_lhs => rw [hdecomp]
        rw [List.drop_append_of_le_length (by omega)]
      have hRtake : R.take (k' + 2) = (R.take i).take (k' + 2) := by
        conv_lhs => rw [hdecomp]
        rw [List.take_append_of_le_length (by omega)]
      by_cases hpos : pos = 0
      · subst hpos
        simp only [innerExpect, hfR', hU, if_pos rfl]
        constructor
        · conv_lhs => rw [hdecomp]
          rw [linesWithCarry_append_lf, hW]
          simp
        · trivial
      · simp only [innerExpect, hfR', hU, if_neg hpos]
        constructor
        · rw [hRdrop, linesWithCarry_append_lf, hW]
          simp
        · rw [hRtake]

/-- State after feeding a list of lines to the callback in order. -/
def runf {σ : Type} (f : List Char → σ → Int × σ) (E : List (List Char)) (s : σ) : σ :=
  E.foldl (fun st l => (f l st).2) s

theorem runf_nil {σ : Type} (f : List Char → σ → Int × σ) (s : σ) : runf f [] s = s := rfl

theorem runf_cons {σ : Type} (f : List Char → σ → Int × σ) (l : List Char)
    (E : List (List Char)) (s : σ) : runf f (l :: E) s = runf f E (f l s).2 := rfl

theorem runf_append {σ : Type} (f : List Char → σ → Int × σ) (E F : List (List Char))
    (s : σ) : runf f (E ++ F) s = runf f F (runf f E s) :=
  List.foldl_append ..

/-- Base case for the final block (`pos = 0`), LF at the region start:
the region's lines are all emitted except the leading lone LF, which is
left over in the fragment buffer. -/
theorem innerExpect_base_lf (R T sb : List Char) (hR : R ≠ []) (hlf : getC R 0 = '\n') :
    linesWithCarry R (T ++ sb) = ['\n'] :: ((innerExpect R T sb 0).1).reverse
    ∧ (innerExpect R T sb 0).2 = ['\n'] := by
  have hf : firstLFIdx R = some 0 := firstLFIdx_of_getC_zero R hR hlf
  have h0 : 0 < R.length := List.length_pos.mpr hR
  have hgetE : R[0] = '\n' := by rw [← getC_eq_getElem _ _ h0]; exact hlf
  have hRdec : R = '\n' :: R.drop 1 := by
    conv_lhs => rw [eq_take_cons_drop R 0 h0]
    rw [hgetE]
    simp
  simp only [innerExpect, hf]
  constructor
  · conv_lhs => rw [hRdec]
    simp [linesWithCarry]
  · trivial

/-- Base case for the final block (`pos = 0`), no LF at the region start:
everything is emitted and the fragment buffer ends empty. -/
theorem innerExpect_base_nolf (R T sb : List Char) (hR : R ≠ []) (hlf : ¬ getC R 0 = '\n') :
    linesWithCarry R (T ++ sb) = ((innerExpect R T sb 0).1).reverse
    ∧ (innerExpect R T sb 0).2 = [] := by
  rcases hf : firstLFIdx R with - | i
  · have hno : '\n' ∉ R := (firstLFIdx_eq_none_iff R).mp hf
    simp only [innerExpect, hf, if_neg hR, if_pos rfl]
    rw [linesWithCarry_no_lf _ _ hno]
    exact ⟨by simp, rfl⟩
  · cases i with
    | zero => exact absurd (firstLFIdx_spec R 0 hf).2.1 hlf
    | succ j =>
      simp only [innerExpect, hf, if_pos rfl]
      exact ⟨by simp, rfl⟩

/-- Composition: a non-final block's contribution.  The lines of a prefix
extended by the block region (with `T ++ sb` carried) are the lines of the
prefix with the block's leftover fragment carried, followed by the block's
emitted lines (which come out newest-first). -/
theorem innerExpect_comp (A R T sb : List Char) (pos : Nat) (hR : R ≠ []) (hpos : pos ≠ 0) :
    linesWithCarry (A ++ R) (T ++ sb)
      = linesWithCarry A (innerExpect R T sb pos).2 ++ ((innerExpect R T sb pos).1).reverse := by
  rcases hf : firstLFIdx R with - | i
  · have hno : '\n' ∉ R := (firstLFIdx_eq_none_iff R).mp hf
    simp only [innerExpect, hf, if_neg hR, if_neg hpos]
    rw [linesWithCarry_append_no_lf A R (T ++ sb) hno]
    simp
  · cases i with
    | zero =>
      have h0 : 0 < R.length := List.length_pos.mpr hR
      have hgetE : R[0] = '\n' := by
        rw [← getC_eq_getElem _ _ h0]; exact (firstLFIdx_spec R 0 hf).2.1
      have hRdec : R = '\n' :: R.drop 1 := by
        conv_lhs => rw [eq_take_cons_drop R 0 h0]
        rw [hgetE]
        simp
      simp only [innerExpect, hf]
      conv_lhs => rw [hRdec]
      rw [linesWithCarry_append_lf]
      simp
    | succ j =>
      obtain ⟨hjlen, hjLF, hjtake⟩ := firstLFIdx_spec R (j + 1) hf
      have hgetE : R[j + 1] = '\n' := by rw [← getC_eq_getElem _ _ hjlen]; exact hjLF
      have hdec : R = R.take (j + 1) ++ '\n' :: R.drop (j + 2) := by
        conv_lhs => rw [eq_take_cons_drop R (j + 1) hjlen]
        rw [hgetE]
      have htk : R.take (j + 2) = R.take (j + 1) ++ ['\n'] := by
        rw [List.take_succ]
        simp [List.getElem?_eq_getElem hjlen, hgetE]
      simp only [innerExpect, hf, if_neg hpos]
      conv_lhs => rw [hdec, ← List.append_assoc]
      rw [linesWithCarry_append_lf, linesWithCarry_append_no_lf A _ _ hjtake, ← htk]
      simp

/-- The inner scan loop computes `innerExpect` when the callback never asks
to stop: region `R = buf[0..scanp)`, suffix `T = buf[scanp..endp)` (empty,
or the lone terminating LF of the previously emitted line). -/
theorem revInner_spec {σ : Type} (f : List Char → σ → Int × σ)
    (hf : ∀ l s, (f l s).1 = 0) (buf : List Char) (pos : Nat) :
    ∀ fuel scanp endp sb s, scanp ≤ fuel → scanp ≤ endp → endp ≤ buf.length →
    (endp = scanp ∨ (endp = scanp + 1 ∧ getC buf scanp = '\n')) →
    revInner f buf pos fuel scanp endp sb s =
      (0, (innerExpect (buf.take scanp) (slice buf scanp endp) sb pos).2,
       runf f ((innerExpect (buf.take scanp) (slice buf scanp endp) sb pos).1) s,
       (innerExpect (buf.take scanp) (slice buf scanp endp) sb pos).1) := by
  intro fuel
  induction fuel with
  | zero =>
    intro scanp endp sb s hfuel hse hel hrel
    have hz : scanp = 0 := by omega
    subst hz
    rw [revInner]
    simp [innerExpect, firstLFIdx, runf]
  | succ fuel ih =>
    intro scanp endp sb s hfuel hse hel hrel
    rcases Nat.eq_zero_or_pos scanp with hz | hpos0
    · subst hz
      rw [revInner]
      rw [if_neg (by omega : ¬ (0 : Nat) < 0)]
      simp [innerExpect, firstLFIdx, runf]
    · have hslen : scanp ≤ buf.length := Nat.le_trans hse hel
      have hRlen : (buf.take scanp).length = scanp := by
        rw [List.length_take]; omega
      have hRne : buf.take scanp ≠ [] := by
        intro he; rw [he] at hRlen; simp at hRlen; omega
      have hTeq : buf.take endp = buf.take scanp ++ slice buf scanp endp :=
        take_eq_append_slice buf scanp endp hse
      rw [revInner]
      rw [if_pos hpos0]
      dsimp only
      rw [fbol_eq buf scanp hslen]
      rcases hlast : lastLFIdx (buf.take scanp) with - | i
      · -- no LF in the region
        have hno : '\n' ∉ buf.take scanp := (lastLFIdx_eq_none_iff _).mp hlast
        have hnolf0 : ¬ getC buf 0 = '\n' := by
          intro hc
          have : getC (buf.take scanp) 0 = '\n' := by
            rw [getC_take _ _ _ hpos0]; exact hc
          exact hno (this ▸ getC_mem _ hRne)
        have hfnone : firstLFIdx (buf.take scanp) = none :=
          (firstLFIdx_eq_none_iff _).mpr hno
        simp only [if_neg hnolf0]
        by_cases hp : pos = 0
        · subst hp
          simp only [if_pos rfl]
          rw [hf]
          simp only [innerExpect, hfnone, if_neg hRne, if_pos rfl]
          rw [slice_zero, hTeq]
          simp [runf, List.append_assoc]
        · simp only [if_neg hp]
          simp only [innerExpect, hfnone, if_neg hRne, if_neg hp]
          rw [slice_zero, hTeq]
          simp [runf, List.append_assoc]
      · -- LF at i in the region
        obtain ⟨hilt, hiLF, hnoW⟩ := lastLFIdx_spec _ i hlast
        rw [hRlen] at hilt
        have hiLF' : getC buf i = '\n' := by
          rw [← getC_take buf scanp i hilt]; exact hiLF
        simp only [if_pos hiLF']
        have hline : slice buf (i + 1) endp
            = (buf.take scanp).drop (i + 1) ++ slice buf scanp endp := by
          rw [slice_split buf (i + 1) scanp endp (by omega) hse, take_drop_eq_slice]
        rw [hf]
        simp only [ne_eq, not_true_eq_false, ite_false, if_neg (by trivial : ¬ (0 : Int) ≠ 0)]
        rcases Nat.eq_zero_or_pos i with hi0 | hi1
        · -- LF at index 0: emit and save the lone LF
          subst hi0
          simp only [if_pos rfl]
          have hslice01 : slice buf 0 (0 + 1) = [getC buf 0] :=
            slice_singleton buf 0 (by omega)
          have hfz : firstLFIdx (buf.take scanp) = some 0 :=
            firstLFIdx_of_getC_zero _ hRne (by rw [getC_take _ _ _ hpos0]; exact hiLF')
          simp only [innerExpect, hfz]
          rw [linesWithCarry_no_lf _ _ hnoW]
          rw [hslice01, hiLF', hline]
          simp [runf, List.append_assoc]
        · -- LF at i ≥ 1: emit, then continue scanning buf[0..i)
          have hine : ¬ i = 0 := by omega
          simp only [if_neg hine]
          rw [ih i (i + 1) [] (f (slice buf (i + 1) endp ++ sb) s).2
            (by omega) (by omega) (by omega) (Or.inr ⟨rfl, hiLF'⟩)]
          have hstep := innerExpect_step (buf.take scanp) (slice buf scanp endp) sb pos i
            hlast hi1
          have htt : (buf.take scanp).take i = buf.take i := take_take_eq buf scanp i (by omega)
          have hsl1 : slice buf i (i + 1) = ['\n'] := by
            rw [slice_singleton buf i (by omega), hiLF']
          rw [htt] at hstep
          rw [hsl1, hstep.1, hstep.2]
          rw [hline]
          simp only [runf_cons]
          rw [show (buf.take scanp).drop (i + 1) ++ slice buf scanp endp ++ sb
              = (buf.take scanp).drop (i + 1) ++ (slice buf scanp endp ++ sb) by
            simp [List.append_assoc]]

/-- Lines the scan from prefix length `pos` with carried fragment `sb` will
emit (newest first): all lines of `c[0..pos) ++ sb`, except that a file
starting with LF keeps its first (lone-LF) line as an unprocessed leftover. -/
def mainLines (c : List Char) (pos : Nat) (sb : List Char) : List (List Char) :=
  if getC c 0 = '\n' then ((linesWithCarry (c.take pos) sb).drop 1).reverse
  else (linesWithCarry (c.take pos) sb).reverse

/-- The fragment left in the strbuf when the scan reaches the file start. -/
def mainLeft (c : List Char) : List Char :=
  if getC c 0 = '\n' then ['\n'] else []

theorem adj_append (b : Prop) [Decidable b] (L X : List (List Char)) (hL : L ≠ []) :
    (if b then ((L ++ X).drop 1).reverse else (L ++ X).reverse)
      = X.reverse ++ (if b then (L.drop 1).reverse else L.reverse) := by
  have h1 : (L ++ X).drop 1 = L.drop 1 ++ X := by
    rw [List.drop_append_of_le_length]
    exact Nat.succ_le_of_lt (List.length_pos.mpr hL)
  by_cases hb : b <;> simp [hb, h1]

/-- The outer loop at `pos = 0` exits at once, whatever the fuel. -/
theorem revOuter_pos_zero {σ : Type} (f : List Char → σ → Int × σ) (c : List Char)
    (bs : Nat) (fuel : Nat) (a_tail : Bool) (sb : List Char) (s : σ) :
    revOuter f c bs fuel 0 a_tail sb s = (0, sb, s, []) := by
  cases fuel with
  | zero => rw [revOuter]
  | succ fuel =>
    rw [revOuter]
    rw [if_neg (by omega : ¬ (0 : Nat) < 0)]

/-- The outer block loop (past the first block, `a_tail = false`) with a
never-stopping callback: emits `mainLines`, leaves `mainLeft`. -/
theorem revOuter_spec {σ : Type} (f : List Char → σ → Int × σ)
    (hf : ∀ l s, (f l s).1 = 0) (c : List Char) (bs : Nat) (hbs : 1 ≤ bs) :
    ∀ fuel pos, pos ≤ fuel → 1 ≤ pos → pos ≤ c.length → ∀ sb (s : σ),
    revOuter f c bs fuel pos false sb s =
      (0, mainLeft c, runf f (mainLines c pos sb) s, mainLines c pos sb) := by
  intro fuel
  induction fuel with
  | zero => intro pos hfp hp1 _ sb s; omega
  | succ fuel ih =>
    intro pos hfp hp1 hplen sb s
    have hcnt1 : 1 ≤ min bs pos := le_min hbs hp1
    rw [revOuter]
    rw [if_pos (by omega : 0 < pos)]
    rw [if_neg (by omega : ¬ min bs pos = 0)]
    dsimp only
    have hbuflen : (slice c (pos - min bs pos) pos).length = min bs pos := by
      rw [slice_length]; omega
    have hsc : (if (false : Bool) ∧ getC (slice c (pos - min bs pos) pos) (min bs pos - 1) = '\n'
        then min bs pos - 1 else min bs pos) = min bs pos := by
      simp
    rw [hsc]
    rw [revInner_spec f hf _ (pos - min bs pos) (min bs pos) (min bs pos) (min bs pos) sb s
      le_rfl le_rfl hbuflen.ge (Or.inl rfl)]
    have hT : slice (slice c (pos - min bs pos) pos) (min bs pos) (min bs pos) = [] := by
      simp [slice]
    have hR : (slice c (pos - min bs pos) pos).take (min bs pos)
        = slice c (pos - min bs pos) pos :=
      List.take_of_length_le (by rw [hbuflen])
    rw [hT, hR]
    rw [if_neg (by trivial : ¬ (0 : Int) ≠ 0)]
    rcases Nat.eq_zero_or_pos (pos - min bs pos) with hpz | hppos
    · -- this was the final block: the scan region is the whole prefix c[0..pos)
      rw [hpz, slice_zero]
      rw [revOuter_pos_zero]
      have hRne : c.take pos ≠ [] := by
        intro he
        have h2 : (c.take pos).length = 0 := by rw [he]; rfl
        rw [List.length_take] at h2
        omega
      have hg0 : getC (c.take pos) 0 = getC c 0 := getC_take c pos 0 (by omega)
      by_cases hlf : getC c 0 = '\n'
      · obtain ⟨hb1, hb2⟩ := innerExpect_base_lf (c.take pos) [] sb hRne (hg0 ▸ hlf)
        simp only [List.nil_append] at hb1
        unfold mainLines mainLeft
        rw [if_pos hlf, if_pos hlf, hb1, hb2]
        simp
      · obtain ⟨hb1, hb2⟩ := innerExpect_base_nolf (c.take pos) [] sb hRne (hg0 ▸ hlf)
        simp only [List.nil_append] at hb1
        unfold mainLines mainLeft
        rw [if_neg hlf, if_neg hlf, hb1, hb2]
        simp
    · -- more blocks precede this one in the file
      have hbufne : slice c (pos - min bs pos) pos ≠ [] := by
        intro he
        rw [he] at hbuflen
        simp at hbuflen
        omega
      have hcomp := innerExpect_comp (c.take (pos - min bs pos))
        (slice c (pos - min bs pos) pos) [] sb (pos - min bs pos) hbufne (by omega)
      rw [← take_eq_append_slice c (pos - min bs pos) pos (by omega)] at hcomp
      simp only [List.nil_append] at hcomp
      rw [ih (pos - min bs pos) (by omega) hppos (by omega)]

      have hlines : mainLines c pos sb
          = (innerExpect (slice c (pos - min bs pos) pos) [] sb (pos - min bs pos)).1
            ++ mainLines c (pos - min bs pos)
               (innerExpect (slice c (pos - min bs pos) pos) [] sb (pos - min bs pos)).2 := by
        unfold mainLines
        rw [hcomp]
        rw [adj_append _ _ _ (linesWithCarry_ne_nil _ _)]
        simp
      rw [hlines, runf_append]

theorem forwardLines_append_singleton (d : List Char) (x : Char) :
    forwardLines (d ++ [x]) = linesWithCarry d [x] := by
  induction d with
  | nil => by_cases hx : x = '\n' <;> simp [forwardLines, linesWithCarry, hx]
  | cons y d' ih =>
    by_cases hy : y = '\n'
    · simp [forwardLines, linesWithCarry, hy, ih]
    · simp only [List.cons_append, forwardLines, linesWithCarry, if_neg hy,
        List.append_eq, ih]

/-- A nonempty buffer is its leading part plus its last character. -/
theorem eq_take_append_last (c : List Char) (hc : c ≠ []) :
    c = c.take (c.length - 1) ++ [getC c (c.length - 1)] := by
  have h0 : c.length - 1 < c.length := by
    have := List.length_pos.mpr hc
    omega
  conv_lhs => rw [eq_take_cons_drop c (c.length - 1) h0]
  rw [← getC_eq_getElem _ _ h0]
  have : c.drop (c.length - 1 + 1) = [] := List.drop_of_length_le (by omega)
  rw [this]

theorem forwardLines_eq (c : List Char) (hc : c ≠ []) :
    forwardLines c = linesWithCarry (c.take (c.length - 1)) [getC c (c.length - 1)] := by
  conv_lhs => rw [eq_take_append_last c hc]
  exact forwardLines_append_singleton _ _

theorem slice_take (l : List Char) (a b k : Nat) (h : k ≤ b - a) :
    (slice l a b).take k = slice l a (a + k) := by
  unfold slice
  rw [List.take_take, Nat.min_eq_left h]
  congr 1
  omega

/-- Lines the reverse scan feeds to a never-stopping callback, newest
first: all the file's lines in reverse, except that a file beginning with
an empty line (first byte LF, length at least 2) never emits that first
line. -/
def revExpectE (c : List Char) : List (List Char) :=
  if c = [] then []
  else if getC c 0 = '\n' then ((forwardLines c).drop 1).reverse
  else (forwardLines c).reverse

/-- Fragment left in the strbuf at the end of the reverse scan: the first
line's terminator when the file begins with an empty line. -/
def revExpectL (c : List Char) : List Char :=
  if 2 ≤ c.length ∧ getC c 0 = '\n' then ['\n'] else []

/-- Full characterization of the reverse reader for any block size that is
at least 2 (or a file of at most one byte), with a never-stopping
callback: return value 0, leftover `revExpectL`, lines `revExpectE`. -/
theorem bkl_parse_file_reverse_sized_spec {σ : Type} (f : List Char → σ → Int × σ)
    (hf : ∀ l s, (f l s).1 = 0) (c : List Char) (bs : Nat)
    (hbs : 1 ≤ bs) (hbs2 : 2 ≤ bs ∨ c.length ≤ 1) (s : σ) :
    bkl_parse_file_reverse_sized bs (some c) f s =
      (0, revExpectL c, runf f (revExpectE c) s, revExpectE c) := by
  show revOuter f c bs c.length c.length true [] s = _
  by_cases hc : c = []
  · subst hc
    simp [revOuter, revExpectE, revExpectL, runf]
  · obtain ⟨m, hm⟩ : ∃ m, c.length = m + 1 :=
      ⟨c.length - 1, by have := List.length_pos.mpr hc; omega⟩
    have hdecomp : c = c.take m ++ [getC c m] := by
      have h1 := eq_take_append_last c hc
      rw [hm] at h1
      simpa using h1
    have hfwd : forwardLines c = linesWithCarry (c.take m) [getC c m] := by
      conv_lhs => rw [hdecomp]
      exact forwardLines_append_singleton _ _
    have hcnt1 : 1 ≤ min bs (m + 1) := le_min hbs (by omega)
    have hcntle : min bs (m + 1) ≤ m + 1 := min_le_right ..
    rw [hm, revOuter]
    rw [if_pos (by omega : 0 < m + 1)]
    rw [if_neg (by omega : ¬ min bs (m + 1) = 0)]
    dsimp only
    have hbuflen : (slice c (m + 1 - min bs (m + 1)) (m + 1)).length = min bs (m + 1) := by
      rw [slice_length]; omega
    have hgC : getC (slice c (m + 1 - min bs (m + 1)) (m + 1)) (min bs (m + 1) - 1)
        = getC c m := by
      rw [getC_slice _ _ _ _ (by omega)]
      congr 1
      omega
    by_cases hend : getC c m = '\n'
    · -- the file ends with LF: at_tail drops it from the scan region
      rw [if_pos (⟨rfl, by rw [hgC]; exact hend⟩ :
        (true : Bool) ∧ getC (slice c (m + 1 - min bs (m + 1)) (m + 1))
          (min bs (m + 1) - 1) = '\n')]
      rw [revInner_spec f hf _ (m + 1 - min bs (m + 1)) (min bs (m + 1) - 1)
        (min bs (m + 1) - 1) (min bs (m + 1)) [] s le_rfl (by omega) hbuflen.ge
        (Or.inr ⟨by omega, by rw [hgC]; exact hend⟩)]
      rw [if_neg (by trivial : ¬ (0 : Int) ≠ 0)]
      have hT : slice (slice c (m + 1 - min bs (m + 1)) (m + 1)) (min bs (m + 1) - 1)
          (min bs (m + 1)) = ['\n'] := by
        have hlt : min bs (m + 1) - 1 < (slice c (m + 1 - min bs (m + 1)) (m + 1)).length := by
          rw [hbuflen]; omega
        have hsing := slice_singleton (slice c (m + 1 - min bs (m + 1)) (m + 1))
          (min bs (m + 1) - 1) hlt
        rw [show min bs (m + 1) - 1 + 1 = min bs (m + 1) by omega] at hsing
        rw [hsing, hgC, hend]
      have hRc : (slice c (m + 1 - min bs (m + 1)) (m + 1)).take (min bs (m + 1) - 1)
          = slice c (m + 1 - min bs (m + 1)) m := by
        rw [slice_take _ _ _ _ (by omega)]
        congr 1
        omega
      rw [hT, hRc]
      rcases Nat.eq_zero_or_pos (m + 1 - min bs (m + 1)) with hpz | hppos
      · -- single block: the scan region is the whole file minus its final LF
        rw [hpz, revOuter_pos_zero]
        rw [slice_zero]
        dsimp only
        by_cases hm0 : m = 0
        · -- the file is exactly "\n"
          subst hm0
          obtain ⟨a, ha⟩ := List.length_eq_one.mp hm
          have ha' : a = '\n' := by
            have h2 := hend
            rw [ha] at h2
            simpa [getC] using h2
          subst ha'
          rw [ha]
          simp [innerExpect, firstLFIdx, revExpectE, revExpectL, forwardLines, getC, runf]
        · have hRne : c.take m ≠ [] := by
            intro he
            have h2 : (c.take m).length = 0 := by rw [he]; rfl
            rw [List.length_take] at h2
            omega
          have hg0 : getC (c.take m) 0 = getC c 0 := getC_take c m 0 (by omega)
          unfold revExpectE revExpectL
          rw [if_neg hc]
          by_cases hlf : getC c 0 = '\n'
          · obtain ⟨hb1, hb2⟩ := innerExpect_base_lf (c.take m) ['\n'] [] hRne (hg0 ▸ hlf)
            simp only [List.append_nil] at hb1
            rw [if_pos hlf, if_pos (⟨by omega, hlf⟩ : 2 ≤ c.length ∧ getC c 0 = '\n')]
            rw [hfwd, hend, hb1, hb2]
            simp
          · obtain ⟨hb1, hb2⟩ := innerExpect_base_nolf (c.take m) ['\n'] [] hRne (hg0 ▸ hlf)
            simp only [List.append_nil] at hb1
            rw [if_neg hlf, if_neg (by intro hh; exact hlf hh.2)]
            rw [hfwd, hend, hb1, hb2]
            simp
      · -- more blocks precede: compose with the outer-loop characterization
        have hbsge2 : 2 ≤ bs := by
          rcases hbs2 with h | h
          · exact h
          · omega
        have hRlen : (slice c (m + 1 - min bs (m + 1)) m).length = min bs (m + 1) - 1 := by
          rw [slice_length]; omega
        have hRne : slice c (m + 1 - min bs (m + 1)) m ≠ [] := by
          intro he
          rw [he] at hRlen
          simp at hRlen
          omega
        have hcomp := innerExpect_comp (c.take (m + 1 - min bs (m + 1)))
          (slice c (m + 1 - min bs (m + 1)) m) ['\n'] [] (m + 1 - min bs (m + 1))
          hRne (by omega)
        rw [← take_eq_append_slice c (m + 1 - min bs (m + 1)) m (by omega)] at hcomp
        simp only [List.append_nil] at hcomp
        rw [revOuter_spec f hf c bs hbs m (m + 1 - min bs (m + 1)) (by omega) hppos
          (by omega)]
        have hEq : revExpectE c
            = (innerExpect (slice c (m + 1 - min bs (m + 1)) m) ['\n'] []
                (m + 1 - min bs (m + 1))).1
              ++ mainLines c (m + 1 - min bs (m + 1))
                 (innerExpect (slice c (m + 1 - min bs (m + 1)) m) ['\n'] []
                   (m + 1 - min bs (m + 1))).2 := by
          unfold revExpectE mainLines
          rw [if_neg hc, hfwd, hend, hcomp]
          rw [adj_append _ _ _ (linesWithCarry_ne_nil _ _)]
          simp
        have hLq : revExpectL c = mainLeft c := by
          unfold revExpectL mainLeft
          by_cases hlf : getC c 0 = '\n'
          · rw [if_pos hlf, if_pos (⟨by omega, hlf⟩ : 2 ≤ c.length ∧ getC c 0 = '\n')]
          · rw [if_neg hlf, if_neg (by intro hh; exact hlf hh.2)]
        rw [hEq, hLq, runf_append]
    · -- the file does not end with LF: at_tail changes nothing
      rw [if_neg (show ¬ ((true : Bool) ∧ getC (slice c (m + 1 - min bs (m + 1)) (m + 1))
          (min bs (m + 1) - 1) = '\n') by
        intro hh
        exact hend (by rw [← hgC]; exact hh.2))]
      rw [revInner_spec f hf _ (m + 1 - min bs (m + 1)) (min bs (m + 1)) (min bs (m + 1))
        (min bs (m + 1)) [] s le_rfl le_rfl hbuflen.ge (Or.inl rfl)]
      rw [if_neg (by trivial : ¬ (0 : Int) ≠ 0)]
      have hT : slice (slice c (m + 1 - min bs (m + 1)) (m + 1)) (min bs (m + 1))
          (min bs (m + 1)) = [] := by
        simp [slice]
      have hR : (slice c (m + 1 - min bs (m + 1)) (m + 1)).take (min bs (m + 1))
          = slice c (m + 1 - min bs (m + 1)) (m + 1) :=
        List.take_of_length_le (by rw [hbuflen])
      rw [hT, hR]
      have hnoLast : '\n' ∉ [getC c m] := by
        intro hmem
        rw [List.mem_singleton] at hmem
        exact hend hmem.symm
      have hfwd2 : forwardLines c = linesWithCarry c [] := by
        have h2 := linesWithCarry_append_no_lf (c.take m) [getC c m] [] hnoLast
        rw [List.append_nil] at h2
        rw [hfwd, ← h2, ← hdecomp]
      rcases Nat.eq_zero_or_pos (m + 1 - min bs (m + 1)) with hpz | hppos
      · -- single block covering the whole file
        rw [hpz, revOuter_pos_zero]
        have hceq : slice c 0 (m + 1) = c := by
          rw [slice_zero, ← hm]
          exact List.take_length c
        rw [hceq]
        dsimp only
        unfold revExpectE revExpectL
        rw [if_neg hc]
        by_cases hlf : getC c 0 = '\n'
        · obtain ⟨hb1, hb2⟩ := innerExpect_base_lf c [] [] hc hlf
          simp only [List.nil_append] at hb1
          have hlen2 : 2 ≤ c.length := by
            rcases Nat.lt_or_ge c.length 2 with h2 | h2
            · exfalso
              have hm0 : m = 0 := by omega
              rw [hm0] at hend
              exact hend hlf
            · exact h2
          rw [if_pos hlf, if_pos ⟨hlen2, hlf⟩]
          rw [hfwd2, hb1, hb2]
          simp
        · obtain ⟨hb1, hb2⟩ := innerExpect_base_nolf c [] [] hc hlf
          simp only [List.nil_append] at hb1
          rw [if_neg hlf, if_neg (by intro hh; exact hlf hh.2)]
          rw [hfwd2, hb1, hb2]
          simp
      · -- more blocks precede
        have hbufne : slice c (m + 1 - min bs (m + 1)) (m + 1) ≠ [] := by
          intro he
          rw [he] at hbuflen
          simp at hbuflen
          omega
        have hcomp := innerExpect_comp (c.take (m + 1 - min bs (m + 1)))
          (slice c (m + 1 - min bs (m + 1)) (m + 1)) [] []
          (m + 1 - min bs (m + 1)) hbufne (by omega)
        rw [← take_eq_append_slice c (m + 1 - min bs (m + 1)) (m + 1) (by omega)] at hcomp
        simp only [List.nil_append] at hcomp
        rw [show c.take (m + 1) = c by rw [← hm]; exact List.take_length c] at hcomp
        rw [revOuter_spec f hf c bs hbs m (m + 1 - min bs (m + 1)) (by omega) hppos
          (by omega)]
        have hEq : revExpectE c
            = (innerExpect (slice c (m + 1 - min bs (m + 1)) (m + 1)) [] []
                (m + 1 - min bs (m + 1))).1
              ++ mainLines c (m + 1 - min bs (m + 1))
                 (innerExpect (slice c (m + 1 - min bs (m + 1)) (m + 1)) [] []
                   (m + 1 - min bs (m + 1))).2 := by
          unfold revExpectE mainLines
          rw [if_neg hc, hfwd2, hcomp]
          rw [adj_append _ _ _ (linesWithCarry_ne_nil _ _)]
          simp
        have hLq : revExpectL c = mainLeft c := by
          unfold revExpectL mainLeft
          by_cases hlf : getC c 0 = '\n'
          · have hlen2 : 2 ≤ c.length := by omega
            rw [if_pos hlf, if_pos ⟨hlen2, hlf⟩]
          · rw [if_neg hlf, if_neg (by intro hh; exact hlf hh.2)]
        rw [hEq, hLq, runf_append]

/-! ## The forward reader -/

theorem forwardLines_eq_splitLine (c : List Char) (hc : c ≠ []) :
    forwardLines c = (splitLine c).1 :: forwardLines (splitLine c).2 := by
  induction c with
  | nil => exact absurd rfl hc
  | cons x xs ih =>
    by_cases hx : x = '\n'
    · simp [forwardLines, splitLine, hx]
    · by_cases hxs : xs = []
      · subst hxs
        simp [forwardLines, splitLine, hx]
      · simp only [forwardLines, splitLine, if_neg hx]
        rw [ih hxs]

/-- The forward read loop with a never-stopping callback feeds exactly the
LF-delimited lines of the content, oldest first. -/
theorem fwdLoop_spec {σ : Type} (f : List Char → σ → Int × σ)
    (hf : ∀ l s, (f l s).1 = 0) :
    ∀ fuel c (s : σ), c.length ≤ fuel →
    fwdLoop f fuel c s = (0, runf f (forwardLines c) s, forwardLines c) := by
  intro fuel
  induction fuel with
  | zero =>
    intro c s hlen
    have hc : c = [] := List.length_eq_zero.mp (by omega)
    subst hc
    simp [fwdLoop, forwardLines, runf]
  | succ fuel ih =>
    intro c s hlen
    by_cases hc : c = []
    · subst hc
      rw [fwdLoop, if_pos rfl]
      simp [forwardLines, runf]
    · rw [fwdLoop, if_neg hc]
      dsimp only
      rw [hf]
      rw [if_neg (by trivial : ¬ (0 : Int) ≠ 0)]
      rw [ih (splitLine c).2 (f (splitLine c).1 s).2
        (by have := splitLine_snd_length c hc; omega)]
      rw [forwardLines_eq_splitLine c hc]
      simp [runf_cons]

/-! ## No leftover fragment when the file does not begin with LF -/

theorem find_beginning_of_line_lt (buf : List Char) (scan : Nat) (h : 0 < scan) :
    find_beginning_of_line buf 0 scan < scan := by
  cases scan with
  | zero => omega
  | succ n =>
    rw [find_beginning_of_line, if_pos (Nat.zero_lt_succ n)]
    by_cases hlf : getC buf n = '\n'
    · simp [hlf]
    · rw [if_neg hlf]
      exact Nat.lt_of_le_of_lt (find_beginning_of_line_le buf n) (Nat.lt_succ_self n)

/-- In the final block (`pos = 0`), if the file's first byte is not LF then
a run of the inner loop that did not abort leaves an empty fragment. -/
theorem revInner_leftover {σ : Type} (f : List Char → σ → Int × σ) (buf : List Char) :
    ∀ fuel scanp endp sb (s : σ), scanp ≤ fuel →
    (scanp = 0 → sb = []) →
    ¬ getC buf 0 = '\n' →
    (revInner f buf 0 fuel scanp endp sb s).1 = 0 →
    (revInner f buf 0 fuel scanp endp sb s).2.1 = [] := by
  intro fuel
  induction fuel with
  | zero =>
    intro scanp endp sb s hfuel hsb hlf0 hret
    rw [revInner] at hret ⊢
    exact hsb (by omega)
  | succ fuel ih =>
    intro scanp endp sb s hfuel hsb hlf0 hret
    rcases Nat.eq_zero_or_pos scanp with hz | hpos
    · rw [revInner, if_neg (by omega : ¬ (0 : Nat) < scanp)] at hret ⊢
      exact hsb hz
    · rw [revInner, if_pos hpos] at hret ⊢
      dsimp only at hret ⊢
      by_cases hlf : getC buf (find_beginning_of_line buf 0 scanp) = '\n'
      · rw [if_pos hlf] at hret ⊢
        by_cases hr : (f (slice buf (find_beginning_of_line buf 0 scanp + 1) endp ++ sb) s).1 ≠ 0
        · rw [if_pos hr] at hret ⊢
        · rw [if_neg hr] at hret ⊢
          by_cases hbp : find_beginning_of_line buf 0 scanp = 0
          · exact absurd (hbp ▸ hlf) hlf0
          · rw [if_neg hbp] at hret ⊢
            exact ih (find_beginning_of_line buf 0 scanp)
              (find_beginning_of_line buf 0 scanp + 1) []
              (f (slice buf (find_beginning_of_line buf 0 scanp + 1) endp ++ sb) s).2
              (by have := find_beginning_of_line_lt buf scanp hpos; omega)
              (fun _ => rfl) hlf0 hret
      · rw [if_neg hlf, if_pos rfl] at hret ⊢

/-- If the file's first byte is not LF, a reverse scan that returns 0
leaves an empty fragment in the strbuf (no `BUG`). -/
theorem revOuter_leftover {σ : Type} (f : List Char → σ → Int × σ) (c : List Char)
    (bs : Nat) :
    ∀ fuel pos a_t sb (s : σ), pos ≤ fuel → pos ≤ c.length →
    (pos = 0 → sb = []) → (a_t = true → sb = []) →
    ¬ getC c 0 = '\n' →
    (revOuter f c bs fuel pos a_t sb s).1 = 0 →
    (revOuter f c bs fuel pos a_t sb s).2.1 = [] := by
  intro fuel
  induction fuel with
  | zero =>
    intro pos a_t sb s hfuel hlen hp0 hat hlf0 hret
    rw [revOuter] at hret ⊢
    exact hp0 (by omega)
  | succ fuel ih =>
    intro pos a_t sb s hfuel hlen hp0 hat hlf0 hret
    rcases Nat.eq_zero_or_pos pos with hz | hpos
    · rw [revOuter, if_neg (by omega : ¬ (0 : Nat) < pos)] at hret ⊢
      exact hp0 hz
    · rw [revOuter, if_pos hpos] at hret ⊢
      dsimp only at hret ⊢
      by_cases hcnt : min bs pos = 0
      · rw [if_pos hcnt] at hret ⊢
        simp at hret
      · rw [if_neg hcnt] at hret ⊢
        by_cases hr : (revInner f (slice c (pos - min bs pos) pos) (pos - min bs pos)
            (if a_t ∧ getC (slice c (pos - min bs pos) pos) (min bs pos - 1) = '\n'
             then min bs pos - 1 else min bs pos)
            (if a_t ∧ getC (slice c (pos - min bs pos) pos) (min bs pos - 1) = '\n'
             then min bs pos - 1 else min bs pos)
            (min bs pos) sb s).1 ≠ 0
        · rw [if_pos hr] at hret ⊢
          exact absurd hret hr
        · rw [if_neg hr] at hret ⊢
          refine ih (pos - min bs pos) false _ _ (by omega) (by omega) ?_ (by simp) hlf0 hret
          -- if the next position is 0, this block was the final one and the
          -- inner loop left no fragment
          intro hnz
          rw [Decidable.not_not] at hr
          have hbuf0 : getC (slice c 0 pos) 0 = getC c 0 := by
            rw [slice_zero]
            exact getC_take c pos 0 hpos
          rw [hnz] at hr ⊢
          exact revInner_leftover f _ _ _ _ _ _ le_rfl
            (by
              intro hsc0
              by_cases hcond : a_t ∧ getC (slice c 0 pos) (min bs pos - 1) = '\n'
              · exact hat hcond.1
              · rw [if_neg hcond] at hsc0
                omega)
            (by rw [hbuf0]; exact hlf0) hr

/-! ## Codec helper lemmas -/

theorem getC_set_ne (l : List Char) (j i : Nat) (x : Char) (h : ¬ i = j) :
    getC (l.set j x) i = getC l i := by
  unfold getC
  rw [List.getD_eq_getElem?_getD, List.getD_eq_getElem?_getD,
    List.getElem?_set_ne (fun he => h he.symm)]

theorem getC_set_self (l : List Char) (j : Nat) (x : Char) (h : j < l.length) :
    getC (l.set j x) j = x := by
  unfold getC
  rw [List.getD_eq_getElem, List.getElem_set_self]
  rw [List.length_set]
  exact h

theorem drop_set_lt (l : List Char) (j n : Nat) (x : Char) (h : j < n) :
    (l.set j x).drop n = l.drop n := by
  rw [List.drop_set, if_pos h]

theorem drop_set_ge (l : List Char) (j n : Nat) (x : Char) (h : n ≤ j) :
    (l.set j x).drop n = (l.drop n).set (j - n) x := by
  rw [List.drop_set, if_neg (by omega)]

theorem hexCharOfNibble_mem (n : Nat) : hexCharOfNibble n ∈ hexTable := by
  unfold hexCharOfNibble
  by_cases h : n < hexTable.length
  · rw [List.getD_eq_getElem _ _ h]
    exact List.getElem_mem _
  · rw [List.getD_eq_default _ _ (by omega)]
    decide

theorem hexTable_props : ∀ c ∈ hexTable,
    (hexval c).isSome = true ∧ ¬ c = '\n' ∧ ¬ c = '>' ∧ ¬ c = NUL ∧ ¬ c = ' ' := by
  decide

theorem hexval_hexCharOfNibble : ∀ n < 16, hexval (hexCharOfNibble n) = some n := by
  decide

theorem oid_to_hex_cons (b : Nat) (o : List Nat) :
    oid_to_hex (b :: o)
      = hexCharOfNibble (b / 16) :: hexCharOfNibble (b % 16) :: oid_to_hex o := rfl

theorem oid_to_hex_length (o : List Nat) : (oid_to_hex o).length = 2 * o.length := by
  induction o with
  | nil => rfl
  | cons b o ih =>
    rw [oid_to_hex_cons]
    simp only [List.length_cons, ih]
    omega

theorem oid_to_hex_mem (o : List Nat) : ∀ c ∈ oid_to_hex o, c ∈ hexTable := by
  induction o with
  | nil => intro c hc; exact absurd hc (by simp [oid_to_hex])
  | cons b o ih =>
    intro c hc
    rw [oid_to_hex_cons] at hc
    rcases List.mem_cons.mp hc with h | hc2
    · exact h ▸ hexCharOfNibble_mem _
    · rcases List.mem_cons.mp hc2 with h | hc3
      · exact h ▸ hexCharOfNibble_mem _
      · exact ih c hc3

theorem hex_to_bytes_zero (l : List Char) : hex_to_bytes l 0 = some [] := by
  match l with
  | [] => rfl
  | [a] => rfl
  | a :: b :: t => rfl

/-- Parsing the hex of an oid recovers its bytes, whatever follows. -/
theorem hex_to_bytes_oid (o : List Nat) (rest : List Char) (hb : ∀ b ∈ o, b < 256) :
    hex_to_bytes (oid_to_hex o ++ rest) o.length = some o := by
  induction o with
  | nil => exact hex_to_bytes_zero _
  | cons b o ih =>
    rw [oid_to_hex_cons]
    simp only [List.cons_append, List.length_cons]
    rw [hex_to_bytes]
    have hblt : b < 256 := hb b (List.mem_cons_self b o)
    rw [hexval_hexCharOfNibble _ (by omega), hexval_hexCharOfNibble _ (Nat.mod_lt _ (by omega)),
      ih (fun x hx => hb x (List.mem_cons_of_mem _ hx))]
    show some ((16 * (b / 16) + b % 16) :: o) = some (b :: o)
    rw [Nat.div_add_mod]

/-- 2·k hex digits parse successfully, whatever follows. -/
theorem hex_to_bytes_isSome : ∀ (k : Nat) (h rest : List Char), h.length = 2 * k →
    (∀ c ∈ h, (hexval c).isSome = true) → ∃ o, hex_to_bytes (h ++ rest) k = some o := by
  intro k
  induction k with
  | zero =>
    intro h rest hlen _
    exact ⟨[], by rw [hex_to_bytes]⟩
  | succ k ih =>
    intro h rest hlen hhex
    match h with
    | [] => simp at hlen
    | [c1] => simp at hlen; omega
    | c1 :: c2 :: h' =>
      obtain ⟨v1, hv1⟩ := Option.isSome_iff_exists.mp (hhex c1 (by simp))
      obtain ⟨v2, hv2⟩ := Option.isSome_iff_exists.mp (hhex c2 (by simp))
      obtain ⟨o, ho⟩ := ih h' rest (by simp at hlen; omega)
        (fun c hc => hhex c (by simp [hc]))
      refine ⟨(16 * v1 + v2) :: o, ?_⟩
      simp only [List.cons_append]
      rw [hex_to_bytes, hv1, hv2, ho]

theorem strchrFrom_append_no (A B : List Char) (ch : Char) :
    ∀ off, (∀ x ∈ A, ¬ x = ch ∧ ¬ x = NUL) →
    strchrFrom (A ++ B) ch off = strchrFrom B ch (off + A.length) := by
  induction A with
  | nil => intro off _; simp [strchrFrom]
  | cons a A ih =>
    intro off hA
    obtain ⟨h1, h2⟩ := hA a (List.mem_cons_self a A)
    simp only [List.cons_append, strchrFrom, if_neg h1, if_neg h2, List.append_eq]
    rw [ih (off + 1) (fun x hx => hA x (List.mem_cons_of_mem _ hx))]
    congr 1
    simp
    omega

theorem strchrFrom_cons_self (B : List Char) (ch : Char) (off : Nat) :
    strchrFrom (ch :: B) ch off = some off := by
  simp [strchrFrom]

theorem digitsFrom_all (ds : List Char) :
    ∀ (rest : List Char) (i : Nat), (∀ c ∈ ds, isDigitC c = true) →
    digitsFrom (ds ++ rest) i = digitsFrom rest (i + ds.length) := by
  induction ds with
  | nil => intro rest i _; simp [digitsFrom]
  | cons d ds ih =>
    intro rest i hds
    simp only [List.cons_append, digitsFrom, if_pos (hds d (List.mem_cons_self d ds)),
      List.append_eq]
    rw [ih rest (i + 1) (fun c hc => hds c (List.mem_cons_of_mem _ hc))]
    congr 1
    simp
    omega

theorem digitsFrom_stop (x : Char) (r : List Char) (i : Nat) (h : ¬ isDigitC x = true) :
    digitsFrom (x :: r) i = i := by
  simp [digitsFrom, h]

theorem skipFrom_stop (x : Char) (r : List Char) (i : Nat) (h : ¬ isSpaceC x = true) :
    skipFrom (x :: r) i = i := by
  simp [skipFrom, h]

theorem takeWhile_append_nul (p rest : List Char) (hp : NUL ∉ p) :
    (p ++ NUL :: rest).takeWhile (fun c => ¬ c = NUL) = p := by
  induction p with
  | nil => simp [List.takeWhile_cons]
  | cons x xs ih =>
    have hx : ¬ x = NUL := fun he => hp (he ▸ List.mem_cons_self x xs)
    simp only [List.cons_append, List.takeWhile_cons]
    rw [if_pos (by simpa using hx), ih (fun hm => hp (List.mem_cons_of_mem _ hm))]

theorem isDigitC_toNat (c : Char) (h : isDigitC c = true) :
    48 ≤ c.toNat ∧ c.toNat ≤ 57 := by
  simp [isDigitC, Char.le_def] at h
  exact h

theorem isDigitC_facts (c : Char) (h : isDigitC c = true) :
    ¬ isSpaceC c = true ∧ ¬ c = '-' ∧ ¬ c = '+' ∧ ¬ c = ' ' ∧ ¬ c = NUL ∧ ¬ c = '\t'
      ∧ ¬ c = '\n' ∧ ¬ c = '>' := by
  obtain ⟨h1, h2⟩ := isDigitC_toNat c h
  have hne : ∀ x : Char, x.toNat < 48 ∨ 57 < x.toNat → ¬ c = x := by
    intro x hx he
    subst he
    omega
  have hs : ¬ isSpaceC c = true := by
    simp only [isSpaceC, Bool.or_eq_true, decide_eq_true_eq, not_or]
    exact ⟨⟨⟨⟨⟨hne ' ' (by decide), hne '\t' (by decide)⟩, hne '\n' (by decide)⟩,
      hne (Char.ofNat 11) (by decide)⟩, hne (Char.ofNat 12) (by decide)⟩,
      hne '\r' (by decide)⟩
  exact ⟨hs, hne '-' (by decide), hne '+' (by decide), hne ' ' (by decide),
    hne NUL (by decide), hne '\t' (by decide), hne '\n' (by decide), hne '>' (by decide)⟩

/-! ## Decimal rendering (the actor-info collaborator's timestamp field) -/

/-- The ASCII digit for `n < 10`. -/
def digitChar (n : Nat) : Char := Char.ofNat (48 + n)

/-- Decimal rendering of a natural number, most significant digit first.
The fuel bounds the value; each recursive call strictly shrinks it. -/
def natToDigitsAux : Nat → Nat → List Char
  | 0, _ => []
  | fuel + 1, n =>
    if n < 10 then [digitChar n]
    else natToDigitsAux fuel (n / 10) ++ [digitChar (n % 10)]

/-- Decimal rendering of a natural number. -/
def natToDigits (n : Nat) : List Char := natToDigitsAux (n + 1) n

theorem digitChar_isDigit : ∀ n < 10, isDigitC (digitChar n) = true := by decide

theorem digitChar_toNat : ∀ n < 10, (digitChar n).toNat = 48 + n := by decide

theorem natOfDigits_append_digit (A : List Char) (c : Char) :
    natOfDigits (A ++ [c]) = natOfDigits A * 10 + (c.toNat - '0'.toNat) := by
  unfold natOfDigits
  rw [List.foldl_append]
  rfl

theorem natToDigitsAux_spec : ∀ fuel n, n ≤ fuel →
    natToDigitsAux (fuel + 1) n ≠ []
    ∧ (∀ c ∈ natToDigitsAux (fuel + 1) n, isDigitC c = true)
    ∧ natOfDigits (natToDigitsAux (fuel + 1) n) = n := by
  intro fuel
  induction fuel with
  | zero =>
    intro n hn
    have h0 : n = 0 := by omega
    subst h0
    refine ⟨by simp [natToDigitsAux], ?_, by decide⟩
    intro c hc
    rw [natToDigitsAux, if_pos (by omega)] at hc
    rcases List.mem_singleton.mp hc with h
    exact h ▸ digitChar_isDigit 0 (by omega)
  | succ fuel ih =>
    intro n hn
    by_cases h10 : n < 10
    · rw [natToDigitsAux, if_pos h10]
      refine ⟨by simp, ?_, ?_⟩
      · intro c hc
        rcases List.mem_singleton.mp hc with h
        exact h ▸ digitChar_isDigit n h10
      · show natOfDigits ([] ++ [digitChar n]) = n
        rw [natOfDigits_append_digit, digitChar_toNat n h10]
        show 0 * 10 + (48 + n - 48) = n
        omega
    · rw [natToDigitsAux, if_neg h10]
      have hdiv : n / 10 < n := Nat.div_lt_self (by omega) (by omega)
      obtain ⟨hne, hdig, hval⟩ := ih (n / 10) (by omega)
      refine ⟨by simp, ?_, ?_⟩
      · intro c hc
        rcases List.mem_append.mp hc with h | h
        · exact hdig c h
        · rcases List.mem_singleton.mp h with h
          exact h ▸ digitChar_isDigit _ (Nat.mod_lt _ (by omega))
      · rw [natOfDigits_append_digit, hval, digitChar_toNat _ (Nat.mod_lt _ (by omega))]
        show n / 10 * 10 + (48 + n % 10 - 48) = n
        omega

theorem natToDigits_ne_nil (n : Nat) : natToDigits n ≠ [] :=
  (natToDigitsAux_spec n n le_rfl).1

theorem natToDigits_digits (n : Nat) : ∀ c ∈ natToDigits n, isDigitC c = true :=
  (natToDigitsAux_spec n n le_rfl).2.1

theorem natOfDigits_natToDigits (n : Nat) : natOfDigits (natToDigits n) = n :=
  (natToDigitsAux_spec n n le_rfl).2.2

/-- Digit strings denote values below `10 ^ length` (accumulator form). -/
theorem foldl_digits_lt (ds : List Char) : ∀ a : Nat, (∀ c ∈ ds, isDigitC c = true) →
    ds.foldl (fun a c => a * 10 + (c.toNat - '0'.toNat)) a < (a + 1) * 10 ^ ds.length := by
  induction ds with
  | nil =>
    intro a _
    simp only [List.foldl_nil, List.length_nil, Nat.pow_zero, Nat.mul_one]
    exact Nat.lt_succ_self a
  | cons c ds ih =>
    intro a hds
    obtain ⟨-, h9⟩ := isDigitC_toNat c (hds c (List.mem_cons_self c ds))
    have hstep := ih (a * 10 + (c.toNat - '0'.toNat))
      (fun x hx => hds x (List.mem_cons_of_mem _ hx))
    simp only [List.foldl_cons, List.length_cons]
    refine Nat.lt_of_lt_of_le hstep ?_
    have hd : c.toNat - '0'.toNat ≤ 9 := by
      show c.toNat - 48 ≤ 9
      omega
    calc (a * 10 + (c.toNat - '0'.toNat) + 1) * 10 ^ ds.length
        ≤ ((a + 1) * 10) * 10 ^ ds.length := by
          apply Nat.mul_le_mul_right
          omega
      _ = (a + 1) * 10 ^ (ds.length + 1) := by
          rw [Nat.pow_succ]
          ring

theorem natOfDigits_lt (ds : List Char) (h : ∀ c ∈ ds, isDigitC c = true) :
    natOfDigits ds < 10 ^ ds.length := by
  have := foldl_digits_lt ds 0 h
  simpa [natOfDigits] using this

/-! ## `strtoumax`/`strtol` on the layouts the decoder meets -/

/-- `strtoumax` on a nonempty digit run followed by a non-digit: the run's
value and the index just past it. -/
theorem strtoumax10_digits (l : List Char) (start : Nat) (ds : List Char) (x : Char)
    (rest : List Char) (hdrop : l.drop start = ds ++ x :: rest)
    (hds : ∀ c ∈ ds, isDigitC c = true) (hne : ds ≠ [])
    (hx : ¬ isDigitC x = true) (hv : natOfDigits ds < UINTMAX_BOUND) :
    strtoumax10 l start = (natOfDigits ds, start + ds.length) := by
  obtain ⟨d, ds', rfl⟩ : ∃ a t, ds = a :: t := by
    cases ds with
    | nil => exact absurd rfl hne
    | cons a t => exact ⟨a, t, rfl⟩
  have hd : isDigitC d = true := hds d (List.mem_cons_self d ds')
  obtain ⟨hdsp, hdm, hdp, -, -, -, -, -⟩ := isDigitC_facts d hd
  have hget : getC l start = d := by
    have := getC_drop l start 0
    rw [Nat.add_zero] at this
    rw [← this, hdrop]
    rfl
  have hskip : skipSpaces l start = start := by
    unfold skipSpaces
    rw [hdrop]
    exact skipFrom_stop d _ start hdsp
  have hrun : digitRunEnd l start = start + (d :: ds').length := by
    unfold digitRunEnd
    rw [hdrop]
    show digitsFrom ((d :: ds') ++ x :: rest) start = _
    rw [digitsFrom_all (d :: ds') (x :: rest) start hds, digitsFrom_stop x rest _ hx]
  have hslice : slice l start (start + (d :: ds').length) = d :: ds' := by
    unfold slice
    rw [hdrop, Nat.add_sub_cancel_left, List.take_left]
  unfold strtoumax10
  dsimp only
  rw [hskip, hget]
  simp only [if_neg (show ¬ (d = '-' ∨ d = '+') from fun h => h.elim hdm hdp)]
  rw [hrun]
  rw [if_neg (show ¬ start + (d :: ds').length = start by simp)]
  rw [hslice]
  rw [if_neg (show ¬ UINTMAX_BOUND ≤ natOfDigits (d :: ds') by omega)]
  rw [if_neg hdm]

/-- `strtol` on a sign, a nonempty digit run and a non-digit stop, with the
value inside the `long` range: the signed value of the run. -/
theorem strtol10_sign_digits (l : List Char) (start : Nat) (sgn : Char) (ds : List Char)
    (y : Char) (rest : List Char) (hdrop : l.drop start = sgn :: (ds ++ y :: rest))
    (hs : sgn = '+' ∨ sgn = '-') (hds : ∀ c ∈ ds, isDigitC c = true) (hne : ds ≠ [])
    (hy : ¬ isDigitC y = true) (hv : (natOfDigits ds : Int) ≤ LONG_MAX) :
    strtol10 l start
      = if sgn = '-' then -(natOfDigits ds : Int) else (natOfDigits ds : Int) := by
  have hsp : ¬ isSpaceC sgn = true := by
    rcases hs with h | h <;> subst h <;> decide
  have hget : getC l start = sgn := by
    have := getC_drop l start 0
    rw [Nat.add_zero] at this
    rw [← this, hdrop]
    rfl
  have hskip : skipSpaces l start = start := by
    unfold skipSpaces
    rw [hdrop]
    exact skipFrom_stop sgn _ start hsp
  have hdrop1 : l.drop (start + 1) = ds ++ y :: rest := by
    have h1 : l.drop (start + 1) = (l.drop start).drop 1 := by
      rw [List.drop_drop]
    rw [h1, hdrop]
    rfl
  have hrun : digitRunEnd l (start + 1) = start + 1 + ds.length := by
    unfold digitRunEnd
    rw [hdrop1, digitsFrom_all ds (y :: rest) _ hds, digitsFrom_stop y rest _ hy]
  have hslice : slice l (start + 1) (start + 1 + ds.length) = ds := by
    unfold slice
    rw [hdrop1, Nat.add_sub_cancel_left, List.take_left]
  have hlen : ds.length ≠ 0 := fun h => hne (List.length_eq_zero.mp h)
  unfold strtol10
  dsimp only
  rw [hskip, hget]
  simp only [if_pos (show sgn = '-' ∨ sgn = '+' from hs.symm.imp id id)]
  rw [hrun]
  rw [if_neg (show ¬ start + 1 + ds.length = start + 1 by omega)]
  rw [hslice]
  by_cases hneg : sgn = '-'
  · rw [if_pos hneg, if_pos hneg]
    have hmin : LONG_MIN ≤ -(natOfDigits ds : Int) := by
      unfold LONG_MIN
      unfold LONG_MAX at hv
      omega
    omega
  · rw [if_neg hneg, if_neg hneg]
    exact min_eq_right hv

/-! ## Positional helpers for the record-line decomposition -/

theorem getC_append_cons (A B : List Char) (c : Char) :
    getC (A ++ c :: B) A.length = c := by
  have h := getC_append_right A (c :: B) 0
  rw [Nat.add_zero] at h
  rw [h]
  rfl

theorem drop_append_cons (A B : List Char) (c : Char) :
    (A ++ c :: B).drop (A.length + 1) = B := by
  have h : A ++ c :: B = (A ++ [c]) ++ B := by simp
  have hl : A.length + 1 = (A ++ [c]).length := by simp
  rw [h, hl, List.drop_left]

theorem drop_append_cons2 (A B : List Char) (c d : Char) :
    (A ++ c :: d :: B).drop (A.length + 2) = B := by
  have h : A ++ c :: d :: B = (A ++ [c, d]) ++ B := by simp
  have hl : A.length + 2 = (A ++ [c, d]).length := by simp
  rw [h, hl, List.drop_left]

theorem drop_add (l : List Char) (a b : Nat) : l.drop (a + b) = (l.drop b).drop a := by
  rw [List.drop_drop, Nat.add_comm]

theorem set_append_add (A B : List Char) (i : Nat) (x : Char) :
    (A ++ B).set (A.length + i) x = A ++ B.set i x := by
  induction A with
  | nil => simp
  | cons a A ih =>
    simp only [List.cons_append, List.length_cons]
    have h : A.length + 1 + i = (A.length + i) + 1 := by omega
    rw [h, List.set_cons_succ, ih]

theorem set_append_cons (A B : List Char) (c x : Char) :
    (A ++ c :: B).set A.length x = A ++ x :: B := by
  have h := set_append_add A (c :: B) 0 x
  rw [Nat.add_zero] at h
  rw [h, List.set_cons_zero]

/-- The C string read at `i` from the twice-mutated buffer, when the bytes
from `i` up to the final LF are NUL-free and the first overwrite lies below
`i`: exactly those bytes (the final LF became the terminator). -/
theorem cstringAt_mutated (sb : List Char) (e i : Nat) (p : List Char)
    (he : e < i) (hdrop : sb.drop i = p ++ ['\n']) (hp : NUL ∉ p) :
    cstringAt ((sb.set e NUL).set (sb.length - 1) NUL) i = p := by
  have hlen : (sb.drop i).length = p.length + 1 := by rw [hdrop]; simp
  rw [List.length_drop] at hlen
  have hn : sb.length - 1 = i + p.length := by omega
  unfold cstringAt
  rw [drop_set_ge _ _ _ _ (by omega), drop_set_lt _ _ _ _ he, hdrop, hn,
    Nat.add_sub_cancel_left, set_append_cons]
  exact takeWhile_append_nul p [] hp

/-- The shared left-to-right facts about a line of the shape
`hex(o1) SP hex(o2) SP ident GT SP tail2`: both identifier parses, the two
space checks, the `strchr` scan for the `>`, the space after it, and the
position of `tail2`. -/
theorem line_decomp_facts (o1 o2 : List Nat) (ident tail2 : List Char)
    (ho1 : o1.length = GIT_SHA1_RAWSZ) (ho1b : ∀ b ∈ o1, b < 256)
    (ho2 : o2.length = GIT_SHA1_RAWSZ) (ho2b : ∀ b ∈ o2, b < 256)
    (hid : ∀ x ∈ ident, ¬ x = '>' ∧ ¬ x = NUL)
    (sb : List Char)
    (hsb : sb = oid_to_hex o1 ++ ' ' ::
      (oid_to_hex o2 ++ ' ' :: (ident ++ '>' :: ' ' :: tail2))) :
    hex_to_bytes sb GIT_SHA1_RAWSZ = some o1
    ∧ getC sb GIT_SHA1_HEXSZ = ' '
    ∧ hex_to_bytes (sb.drop (GIT_SHA1_HEXSZ + 1)) GIT_SHA1_RAWSZ = some o2
    ∧ getC sb (2 * GIT_SHA1_HEXSZ + 1) = ' '
    ∧ strchrIdx sb '>' (2 * GIT_SHA1_HEXSZ + 2) = some (82 + ident.length)
    ∧ getC sb (82 + ident.length + 1) = ' '
    ∧ sb.drop 82 = ident ++ '>' :: ' ' :: tail2
    ∧ sb.drop (84 + ident.length) = tail2
    ∧ sb.length = 84 + ident.length + tail2.length := by
  have hl1 : (oid_to_hex o1).length = 40 := by
    rw [oid_to_hex_length, ho1]
    rfl
  have hl2 : (oid_to_hex o2).length = 40 := by
    rw [oid_to_hex_length, ho2]
    rfl
  have hdrop41 : sb.drop 41 = oid_to_hex o2 ++ ' ' :: (ident ++ '>' :: ' ' :: tail2) := by
    rw [hsb]
    have h := drop_append_cons (oid_to_hex o1) (oid_to_hex o2 ++ ' ' ::
      (ident ++ '>' :: ' ' :: tail2)) ' '
    rw [hl1] at h
    exact h
  have hdrop82 : sb.drop 82 = ident ++ '>' :: ' ' :: tail2 := by
    have h8241 : (82 : Nat) = 41 + 41 := by omega
    rw [h8241, drop_add, hdrop41]
    have h := drop_append_cons (oid_to_hex o2) (ident ++ '>' :: ' ' :: tail2) ' '
    rw [hl2] at h
    exact h
  have ha : hex_to_bytes sb GIT_SHA1_RAWSZ = some o1 := by
    rw [hsb, ← ho1]
    exact hex_to_bytes_oid o1 _ ho1b
  have hb : getC sb GIT_SHA1_HEXSZ = ' ' := by
    show getC sb 40 = ' '
    rw [hsb, ← hl1]
    exact getC_append_cons ..
  have hc : hex_to_bytes (sb.drop (GIT_SHA1_HEXSZ + 1)) GIT_SHA1_RAWSZ = some o2 := by
    show hex_to_bytes (sb.drop 41) GIT_SHA1_RAWSZ = some o2
    rw [hdrop41, ← ho2]
    exact hex_to_bytes_oid o2 _ ho2b
  have hd : getC sb (2 * GIT_SHA1_HEXSZ + 1) = ' ' := by
    show getC sb 81 = ' '
    have h81 : (81 : Nat) = 40 + 41 := by omega
    rw [h81, Nat.add_comm 40 41, ← getC_drop, hdrop41, ← hl2]
    exact getC_append_cons ..
  have he : strchrIdx sb '>' (2 * GIT_SHA1_HEXSZ + 2) = some (82 + ident.length) := by
    show strchrFrom (sb.drop 82) '>' 82 = some (82 + ident.length)
    rw [hdrop82, strchrFrom_append_no ident _ '>' 82 hid, strchrFrom_cons_self]
  have hf : getC sb (82 + ident.length + 1) = ' ' := by
    have h : 82 + ident.length + 1 = 82 + (ident.length + 1) := by omega
    rw [h, ← getC_drop, hdrop82]
    have h2 : ident ++ '>' :: ' ' :: tail2 = (ident ++ ['>']) ++ ' ' :: tail2 := by simp
    have h3 : ident.length + 1 = (ident ++ ['>']).length := by simp
    rw [h2, h3]
    exact getC_append_cons ..
  have hg : sb.drop (84 + ident.length) = tail2 := by
    have h : 84 + ident.length = (ident.length + 2) + 82 := by omega
    rw [h, drop_add, hdrop82]
    exact drop_append_cons2 ..
  have hlen : sb.length = 84 + ident.length + tail2.length := by
    rw [hsb]
    simp [hl1, hl2]
    omega
  exact ⟨ha, hb, hc, hd, he, hf, hdrop82, hg, hlen⟩

theorem getC_snoc_last (S : List Char) (x : Char) :
    getC (S ++ [x]) ((S ++ [x]).length - 1) = x := by
  have hl : (S ++ [x]).length - 1 = S.length := by simp
  rw [hl]
  exact getC_append_cons S [] x

/-- Full evaluation of `bkl_parse_entry` on a line whose prefix is well
formed (two identifiers, spaces, a `>`-terminated ident segment, a space)
and whose actor tail is a nonzero decimal timestamp, a space, a sign and
four timezone digits, followed by an arbitrary LF-terminated tail whose
first byte is not a digit (so `strtol` stops at the fourth digit).  The
decoder succeeds; the returned buffer carries the two NUL overwrites, the
email aliases the ident segment (now NUL-terminated at the overwritten
space), and the path starts after the four digits, one further if a tab
follows them. -/
theorem bkl_parse_entry_eval
    (o1 o2 : List Nat) (ident tsd : List Char) (sgn d1 d2 d3 d4 : Char) (tail : List Char)
    (ho1 : o1.length = GIT_SHA1_RAWSZ) (ho1b : ∀ b ∈ o1, b < 256)
    (ho2 : o2.length = GIT_SHA1_RAWSZ) (ho2b : ∀ b ∈ o2, b < 256)
    (hid : ∀ x ∈ ident, ¬ x = '>' ∧ ¬ x = NUL)
    (htsd : ∀ c ∈ tsd, isDigitC c = true) (htsdne : tsd ≠ [])
    (hts0 : ¬ natOfDigits tsd = 0) (htsB : natOfDigits tsd < UINTMAX_BOUND)
    (hsgn : sgn = '+' ∨ sgn = '-')
    (hd1 : isDigitC d1 = true) (hd2 : isDigitC d2 = true)
    (hd3 : isDigitC d3 = true) (hd4 : isDigitC d4 = true)
    (htl : ∃ t, tail = t ++ ['\n']) (htl0 : ¬ isDigitC (getC tail 0) = true)
    (sb : List Char)
    (hsb : sb = oid_to_hex o1 ++ ' ' :: (oid_to_hex o2 ++ ' ' :: (ident ++ '>' :: ' ' ::
      (tsd ++ ' ' :: sgn :: d1 :: d2 :: d3 :: d4 :: tail)))) :
    bkl_parse_entry sb = some
      ((sb.set (82 + ident.length + 1) NUL).set (sb.length - 1) NUL,
       { old_oid := o1, new_oid := o2,
         email := ident ++ ['>'],
         timestamp := natOfDigits tsd,
         tz := if sgn = '-' then -(natOfDigits [d1, d2, d3, d4] : Int)
               else (natOfDigits [d1, d2, d3, d4] : Int),
         path := cstringAt ((sb.set (82 + ident.length + 1) NUL).set (sb.length - 1) NUL)
           (if ¬ getC tail 0 = '\t' then 84 + ident.length + tsd.length + 6
            else 84 + ident.length + tsd.length + 7) }) := by
  obtain ⟨ha, hb, hc, hd, he, hf, hdrop82, hg, hlen⟩ :=
    line_decomp_facts o1 o2 ident (tsd ++ ' ' :: sgn :: d1 :: d2 :: d3 :: d4 :: tail)
      ho1 ho1b ho2 ho2b hid sb hsb
  obtain ⟨t, ht⟩ := htl
  have htlne : tail ≠ [] := by rw [ht]; simp
  obtain ⟨y, trest, hyt⟩ : ∃ a r, tail = a :: r := by
    cases tail with
    | nil => exact absurd rfl htlne
    | cons a r => exact ⟨a, r, rfl⟩
  have hsbS : sb = (oid_to_hex o1 ++ ' ' :: (oid_to_hex o2 ++ ' ' :: (ident ++ '>' :: ' ' ::
      (tsd ++ ' ' :: sgn :: d1 :: d2 :: d3 :: d4 :: t)))) ++ ['\n'] := by
    rw [hsb, ht]
    simp
  have hlast : getC sb (sb.length - 1) = '\n' := by
    rw [hsbS]
    exact getC_snoc_last _ _
  have hlen6 : (tsd ++ ' ' :: sgn :: d1 :: d2 :: d3 :: d4 :: tail).length
      = tsd.length + (6 + tail.length) := by
    simp only [List.length_append, List.length_cons]
    omega
  have hts : strtoumax10 sb (84 + ident.length)
      = (natOfDigits tsd, 84 + ident.length + tsd.length) :=
    strtoumax10_digits sb (84 + ident.length) tsd ' ' _ hg htsd htsdne (by decide) htsB
  have hgm : getC sb (84 + ident.length + tsd.length) = ' ' := by
    rw [← getC_drop, hg]
    exact getC_append_cons ..
  have hgAt : ∀ k, getC sb (84 + ident.length + tsd.length + k)
      = getC (' ' :: sgn :: d1 :: d2 :: d3 :: d4 :: tail) k := by
    intro k
    have h : 84 + ident.length + tsd.length + k = 84 + ident.length + (tsd.length + k) := by
      omega
    rw [h, ← getC_drop, hg, getC_append_right]
  have hg1 : getC sb (84 + ident.length + tsd.length + 1) = sgn := by
    rw [hgAt 1]
    rfl
  have hda : isDigitC (getC sb (84 + ident.length + tsd.length + 2)) = true := by
    rw [hgAt 2]
    exact hd1
  have hdb : isDigitC (getC sb (84 + ident.length + tsd.length + 3)) = true := by
    rw [hgAt 3]
    exact hd2
  have hdc : isDigitC (getC sb (84 + ident.length + tsd.length + 4)) = true := by
    rw [hgAt 4]
    exact hd3
  have hdd : isDigitC (getC sb (84 + ident.length + tsd.length + 5)) = true := by
    rw [hgAt 5]
    exact hd4
  have hy0 : getC tail 0 = y := by
    rw [hyt]
    rfl
  have hynd : ¬ isDigitC y = true := by
    rw [← hy0]
    exact htl0
  have hdropm1 : (sb.set (82 + ident.length + 1) NUL).drop (84 + ident.length + tsd.length + 1)
      = sgn :: ([d1, d2, d3, d4] ++ y :: trest) := by
    rw [drop_set_lt _ _ _ _ (by omega)]
    have h : 84 + ident.length + tsd.length + 1 = (tsd.length + 1) + (84 + ident.length) := by
      omega
    rw [h, drop_add, hg, drop_append_cons, hyt]
    rfl
  have hv4 : natOfDigits [d1, d2, d3, d4] < 10 ^ 4 := by
    refine natOfDigits_lt _ ?_
    intro c hc
    fin_cases hc <;> assumption
  have htz : strtol10 (sb.set (82 + ident.length + 1) NUL)
      (84 + ident.length + tsd.length + 1)
      = if sgn = '-' then -(natOfDigits [d1, d2, d3, d4] : Int)
        else (natOfDigits [d1, d2, d3, d4] : Int) := by
    refine strtol10_sign_digits _ _ sgn [d1, d2, d3, d4] y trest hdropm1 hsgn ?_ (by simp)
      hynd ?_
    · intro c hc
      fin_cases hc <;> assumption
    · unfold LONG_MAX
      omega
  have hgc6 : getC (sb.set (82 + ident.length + 1) NUL)
      (84 + ident.length + tsd.length + 6) = getC tail 0 := by
    rw [getC_set_ne _ _ _ _ (by omega), hgAt 6]
    rfl
  have hA : NUL ∉ ident ++ ['>'] := by
    intro hm
    rcases List.mem_append.mp hm with h | h
    · exact (hid NUL h).2 rfl
    · exact absurd (List.mem_singleton.mp h) (by decide)
  have hemail : cstringAt ((sb.set (82 + ident.length + 1) NUL).set (sb.length - 1) NUL)
      (2 * GIT_SHA1_HEXSZ + 2) = ident ++ ['>'] := by
    show cstringAt ((sb.set (82 + ident.length + 1) NUL).set (sb.length - 1) NUL) 82 = _
    unfold cstringAt
    rw [drop_set_ge _ _ _ _ (by omega : (82 : Nat) ≤ sb.length - 1)]
    rw [drop_set_ge _ _ _ _ (by omega : (82 : Nat) ≤ 82 + ident.length + 1)]
    rw [hdrop82]
    have h1 : 82 + ident.length + 1 - 82 = (ident ++ ['>']).length := by
      simp only [List.length_append, List.length_cons, List.length_nil]
      omega
    rw [h1]
    have h2 : ident ++ '>' :: ' ' :: (tsd ++ ' ' :: sgn :: d1 :: d2 :: d3 :: d4 :: tail)
        = (ident ++ ['>']) ++ ' ' :: (tsd ++ ' ' :: sgn :: d1 :: d2 :: d3 :: d4 :: tail) := by
      simp
    rw [h2, set_append_cons]
    have h3 : sb.length - 1 - 82 = (ident ++ ['>']).length
        + (tsd ++ ' ' :: sgn :: d1 :: d2 :: d3 :: d4 :: tail).length := by
      rw [hlen, hlen6]
      simp only [List.length_append, List.length_cons, List.length_nil]
      omega
    rw [h3, set_append_add]
    obtain ⟨k, hk⟩ : ∃ k,
        (tsd ++ ' ' :: sgn :: d1 :: d2 :: d3 :: d4 :: tail).length = k + 1 := by
      refine ⟨(tsd ++ ' ' :: sgn :: d1 :: d2 :: d3 :: d4 :: tail).length - 1, ?_⟩
      rw [hlen6]
      omega
    rw [hk, List.set_cons_succ]
    exact takeWhile_append_nul (ident ++ ['>']) _ hA
  unfold bkl_parse_entry
  dsimp only
  rw [if_neg (show ¬ sb.length = 0 by omega)]
  rw [if_neg (not_not_intro hlast)]
  split
  next heq =>
    rw [ha] at heq
    simp at heq
  next old heq =>
    rw [ha] at heq
    injection heq with heq2
    subst heq2
    rw [if_neg (not_not_intro hb)]
    split
    next heq =>
      rw [hc] at heq
      simp at heq
    next new heq =>
      rw [hc] at heq
      injection heq with heq2
      subst heq2
      rw [if_neg (not_not_intro hd)]
      split
      next heq =>
        rw [he] at heq
        simp at heq
      next ee heq =>
        rw [he] at heq
        injection heq with heq2
        subst heq2
        rw [if_neg (not_not_intro hf)]
        rw [show 82 + ident.length + 2 = 84 + ident.length from by omega]
        rw [hts]
        dsimp only
        rw [if_neg hts0]
        rw [if_neg (not_not_intro hgm)]
        rw [if_neg (not_not_intro (show getC sb (84 + ident.length + tsd.length + 1) = '+'
          ∨ getC sb (84 + ident.length + tsd.length + 1) = '-' from by rw [hg1]; exact hsgn))]
        rw [if_neg (not_not_intro ⟨hda, hdb, hdc, hdd⟩)]
        rw [hemail, htz, hgc6]

/-! ## Logs built by repeated `bkl_append` -/

/-- One append request: the arguments of a `bkl_append` call. -/
structure append_req where
  path : List Char
  from_oid : List Nat
  to_oid : List Nat
  committer : List Char
deriving Repr, DecidableEq

/-- The log contents after appending each request in order to an empty
strbuf. -/
def appendEntries (es : List append_req) : List Char :=
  es.foldl (fun acc e => bkl_append acc e.path e.from_oid e.to_oid e.committer) []

/-- The encoded line of each request. -/
def linesOf (es : List append_req) : List (List Char) :=
  es.map (fun e => bkl_line e.path e.from_oid e.to_oid e.committer)

/-- Concatenation of a list of lines. -/
def flatLines : List (List Char) → List Char
  | [] => []
  | l :: ls => l ++ flatLines ls

theorem appendEntries_from (es : List append_req) :
    ∀ acc, (∀ e ∈ es, ¬ e.from_oid = e.to_oid) →
    es.foldl (fun acc e => bkl_append acc e.path e.from_oid e.to_oid e.committer) acc
      = acc ++ flatLines (linesOf es) := by
  induction es with
  | nil =>
    intro acc _
    simp [flatLines, linesOf]
  | cons e es ih =>
    intro acc h
    simp only [List.foldl_cons, linesOf, List.map_cons, flatLines]
    rw [show bkl_append acc e.path e.from_oid e.to_oid e.committer
        = acc ++ bkl_line e.path e.from_oid e.to_oid e.committer from by
      unfold bkl_append
      rw [if_neg (h e (List.mem_cons_self e es))]]
    rw [ih _ (fun x hx => h x (List.mem_cons_of_mem _ hx)), List.append_assoc]
    rfl

theorem appendEntries_eq (es : List append_req)
    (h : ∀ e ∈ es, ¬ e.from_oid = e.to_oid) :
    appendEntries es = flatLines (linesOf es) := by
  unfold appendEntries
  rw [appendEntries_from es [] h]
  rfl

theorem forwardLines_prepend_line (m : List Char) :
    ∀ rest, '\n' ∉ m →
    forwardLines (m ++ '\n' :: rest) = (m ++ ['\n']) :: forwardLines rest := by
  induction m with
  | nil =>
    intro rest _
    simp [forwardLines]
  | cons x xs ih =>
    intro rest h
    have hx : ¬ x = '\n' := fun hc => h (hc ▸ List.mem_cons_self x xs)
    have hxs : '\n' ∉ xs := fun hc => h (List.mem_cons_of_mem x hc)
    simp only [List.cons_append, forwardLines, if_neg hx, List.append_eq, ih rest hxs]

theorem forwardLines_flat : ∀ ls : List (List Char),
    (∀ l ∈ ls, ∃ m, l = m ++ ['\n'] ∧ '\n' ∉ m) → forwardLines (flatLines ls) = ls := by
  intro ls
  induction ls with
  | nil =>
    intro _
    rfl
  | cons l ls ih =>
    intro h
    obtain ⟨m, hm, hmlf⟩ := h l (List.mem_cons_self l ls)
    show forwardLines (l ++ flatLines ls) = l :: ls
    rw [hm, List.append_assoc, List.singleton_append,
      forwardLines_prepend_line m _ hmlf,
      ih (fun x hx => h x (List.mem_cons_of_mem _ hx))]

/-- An encoded line is its LF-free body plus the final LF, provided the
path and committer string contain no LF. -/
theorem bkl_line_shape (path : List Char) (f t : List Nat) (com : List Char)
    (hp : '\n' ∉ path) (hc : '\n' ∉ com) :
    ∃ m, bkl_line path f t com = m ++ ['\n'] ∧ '\n' ∉ m := by
  refine ⟨oid_to_hex f ++ ' ' :: (oid_to_hex t ++ ' ' :: (com ++ '\t' :: path)), ?_, ?_⟩
  · unfold bkl_line
    simp
  · intro hm
    rcases List.mem_append.mp hm with h | h
    · exact (hexTable_props '\n' (oid_to_hex_mem f '\n' h)).2.1 rfl
    · rcases List.mem_cons.mp h with h | h
      · exact absurd h (by decide)
      · rcases List.mem_append.mp h with h | h
        · exact (hexTable_props '\n' (oid_to_hex_mem t '\n' h)).2.1 rfl
        · rcases List.mem_cons.mp h with h | h
          · exact absurd h (by decide)
          · rcases List.mem_append.mp h with h | h
            · exact hc h
            · rcases List.mem_cons.mp h with h | h
              · exact absurd h (by decide)
              · exact hp h

/-- An encoded line never begins with LF (its first byte is a hex digit,
or the space after an empty identifier rendering). -/
theorem bkl_line_head (path : List Char) (f t : List Nat) (com : List Char) :
    ¬ getC (bkl_line path f t com) 0 = '\n' := by
  unfold bkl_line
  cases hf : oid_to_hex f with
  | nil =>
    intro h
    simp [getC] at h
  | cons c cs =>
    have hc : c ∈ hexTable := oid_to_hex_mem f c (hf ▸ List.mem_cons_self c cs)
    exact fun h => (hexTable_props c hc).2.1 h

theorem revExpect_no_lf (c : List Char) (h : ¬ getC c 0 = '\n') :
    revExpectE c = (forwardLines c).reverse ∧ revExpectL c = [] := by
  constructor
  · unfold revExpectE
    by_cases hc : c = []
    · subst hc
      simp [forwardLines]
    · rw [if_neg hc, if_neg h]
  · unfold revExpectL
    rw [if_neg (fun hh => h hh.2)]

theorem linesWithCarry_mem (t sb : List Char) :
    ∀ l ∈ linesWithCarry t sb, (∃ m, l = m ++ ['\n']) ∨ ∃ m, l = m ++ sb := by
  induction t with
  | nil =>
    intro l hl
    rcases List.mem_singleton.mp hl with h
    exact Or.inr ⟨[], by rw [h]; rfl⟩
  | cons x xs ih =>
    intro l hl
    by_cases hx : x = '\n'
    · subst hx
      simp only [linesWithCarry, if_pos rfl] at hl
      rcases List.mem_cons.mp hl with h | h
      · exact Or.inl ⟨[], by rw [h]; rfl⟩
      · exact ih l h
    · rcases hrec : linesWithCarry xs sb with - | ⟨r, rs⟩
      · exact absurd hrec (linesWithCarry_ne_nil xs sb)
      · simp only [linesWithCarry, if_neg hx, hrec] at hl
        rcases List.mem_cons.mp hl with h | h
        · rcases ih r (by rw [hrec]; exact List.mem_cons_self r rs) with ⟨m, hm⟩ | ⟨m, hm⟩
          · exact Or.inl ⟨x :: m, by rw [h, hm]; rfl⟩
          · exact Or.inr ⟨x :: m, by rw [h, hm]; rfl⟩
        · exact ih l (by rw [hrec]; exact List.mem_cons_of_mem r h)

/-- Every line of an LF-terminated file content carries its final LF. -/
theorem forwardLines_lf (t : List Char) :
    ∀ l ∈ forwardLines (t ++ ['\n']), ∃ m, l = m ++ ['\n'] := by
  intro l hl
  rw [forwardLines_append_singleton] at hl
  rcases linesWithCarry_mem t ['\n'] l hl with ⟨m, hm⟩ | ⟨m, hm⟩
  · exact ⟨m, hm⟩
  · exact ⟨m, hm⟩

/-- The reverse reader's lines are among the forward reader's lines. -/
theorem revExpectE_sub (c : List Char) : ∀ l ∈ revExpectE c, l ∈ forwardLines c := by
  intro l hl
  unfold revExpectE at hl
  by_cases hc : c = []
  · rw [if_pos hc] at hl
    exact absurd hl (List.not_mem_nil l)
  · rw [if_neg hc] at hl
    by_cases h0 : getC c 0 = '\n'
    · rw [if_pos h0] at hl
      exact List.mem_of_mem_drop (List.mem_reverse.mp hl)
    · rw [if_neg h0] at hl
      exact List.mem_reverse.mp hl

/-- A concrete never-stopping callback: counts the lines it is fed. -/
def cbCount : List Char → Nat → Int × Nat := fun _ n => (0, n + 1)

/-! ## The specification's wording of the timestamp/timezone stage -/

/-- The decode grammar's step for timestamp and timezone as the
specification words it: a decimal timestamp starting exactly two
characters after the `>`, non-zero, immediately followed by one space, a
sign character and exactly four decimal digits (a fifth digit, or a digit
run starting anywhere else, does not fit this wording). -/
def specTsTzOk (sb : List Char) : Bool :=
  match strchrIdx sb '>' (2 * GIT_SHA1_HEXSZ + 2) with
  | none => false
  | some ee =>
    let j := ee + 2
    let k := digitRunEnd sb j
    (!(k == j)) && (!(natOfDigits (slice sb j k) == 0)) && (getC sb k == ' ')
      && ((getC sb (k + 1) == '+') || (getC sb (k + 1) == '-'))
      && isDigitC (getC sb (k + 2)) && isDigitC (getC sb (k + 3))
      && isDigitC (getC sb (k + 4)) && isDigitC (getC sb (k + 5))
      && !(isDigitC (getC sb (k + 6)))

/-! ## Concrete material for witnesses and counterexamples -/

/-- A 20-byte identifier (hex `aa…aa`). -/
def o1W : List Nat := List.replicate GIT_SHA1_RAWSZ 170

/-- A different 20-byte identifier (hex `bb…bb`). -/
def o2W : List Nat := List.replicate GIT_SHA1_RAWSZ 187

/-- The name-and-email segment before the closing `>`. -/
def identW : List Char := "A <a@b".toList

/-- A record line with five timezone digits after the sign. -/
def lineTz5 : List Char :=
  oid_to_hex o1W ++ ' ' :: (oid_to_hex o2W ++ ' ' :: (identW ++ '>' :: ' ' ::
    "11 +00000p\n".toList))

/-- A well-formed record line (tab before the path). -/
def lineOkW : List Char :=
  oid_to_hex o1W ++ ' ' :: (oid_to_hex o2W ++ ' ' :: (identW ++ '>' :: ' ' ::
    "11 +0000\tp\n".toList))

/-- The tab form of a line whose path starts with a digit. -/
def lineTabW : List Char :=
  oid_to_hex o1W ++ ' ' :: (oid_to_hex o2W ++ ' ' :: (identW ++ '>' :: ' ' ::
    "11 +0000\t5p\n".toList))

/-- The legacy (no-tab) form of the same record. -/
def lineLegW : List Char :=
  oid_to_hex o1W ++ ' ' :: (oid_to_hex o2W ++ ' ' :: (identW ++ '>' :: ' ' ::
    "11 +00005p\n".toList))

/-- Two append requests used to build a two-record log. -/
def reqW1 : append_req :=
  { path := "p".toList, from_oid := o1W, to_oid := o2W,
    committer := "A <a@b> 11 +0000".toList }

/-- A second append request (the reverse transition). -/
def reqW2 : append_req :=
  { path := "q".toList, from_oid := o2W, to_oid := o1W,
    committer := "A <a@b> 12 +0000".toList }

/-! ## The claims -/

/-- Claim C2 (amended): for any block size of at least two bytes, the result
of the reverse scan — return value, leftover fragment, final state and the
whole sequence of lines fed to a never-stopping callback — is independent
of the block size.  (The original claim, block size of at least one, fails:
see the counterexample.) -/
theorem claim2_block_size_independent {σ : Type} (f : List Char → σ → Int × σ)
    (hf : ∀ l s, (f l s).1 = 0) (c : List Char) (bs1 bs2 : Nat)
    (h1 : 2 ≤ bs1) (h2 : 2 ≤ bs2) (s : σ) :
    bkl_parse_file_reverse_sized bs1 (some c) f s
      = bkl_parse_file_reverse_sized bs2 (some c) f s := by
  rw [bkl_parse_file_reverse_sized_spec f hf c bs1 (by omega) (Or.inl h1) s,
    bkl_parse_file_reverse_sized_spec f hf c bs2 (by omega) (Or.inl h2) s]

/-- Witness for C2: block sizes 2 and 3 on the content `a LF`. -/
theorem claim2_block_size_independent_witness :
    bkl_parse_file_reverse_sized 2 (some ['a', '\n']) cbCount 0
      = bkl_parse_file_reverse_sized 3 (some ['a', '\n']) cbCount 0 :=
  claim2_block_size_independent cbCount (fun _ _ => rfl) ['a', '\n'] 2 3
    (by decide) (by decide) 0

/-- Counterexample to C2 as stated: with block size 1 the content `a LF`
is delivered as the record `a` (its LF lost), while block size 2 delivers
`a LF`; the emitted sequence does depend on the block size, and the
record is not intact. -/
theorem claim2_counterexample :
    (bkl_parse_file_reverse_sized 1 (some ['a', '\n']) cbCount 0).2.2.2 = [['a']]
    ∧ (bkl_parse_file_reverse_sized 2 (some ['a', '\n']) cbCount 0).2.2.2 = [['a', '\n']]
    ∧ ¬ (bkl_parse_file_reverse_sized 1 (some ['a', '\n']) cbCount 0).2.2.2
        = (bkl_parse_file_reverse_sized 2 (some ['a', '\n']) cbCount 0).2.2.2 := by
  decide

/-- Claim C4: the claimed unreachability of the leftover branch is false.
On the two-byte file `LF a` the reverse scan returns 0 with the fragment
`LF` still in the strbuf, which is exactly the condition
`!ret && sb.len` under which the source calls
`BUG("reverse reflog parser had leftover data")` and aborts. -/
theorem claim4_leftover_bug :
    (bkl_parse_file_reverse (some ['\n', 'a']) cbCount 0).1 = 0
    ∧ ¬ (bkl_parse_file_reverse (some ['\n', 'a']) cbCount 0).2.1 = [] := by
  decide

/-- Claim C7: a missing log file (modelled as `none`, the `fopen` failure
with `ENOENT`/`ENOTDIR`) makes both readers return success, leave the
callback state untouched and feed the callback no line at all. -/
theorem claim7_missing_file {σ : Type} (f : List Char → σ → Int × σ) (s : σ) :
    bkl_parse_file none f s = (0, s, [])
    ∧ bkl_parse_file_reverse none f s = (0, [], s, []) :=
  ⟨rfl, rfl⟩

/-- Claim C8: `bkl_append` leaves the output buffer exactly as it was if
and only if the two identifiers are equal — a no-op transition contributes
nothing, and a real transition always appends its (nonempty) record. -/
theorem claim8_noop_suppression (output path : List Char) (o1 o2 : List Nat)
    (committer : List Char) :
    bkl_append output path o1 o2 committer = output ↔ o1 = o2 := by
  constructor
  · intro h
    by_contra hne
    unfold bkl_append at h
    rw [if_neg hne] at h
    have hlen := congrArg List.length h
    rw [List.length_append] at hlen
    have hpos : ¬ (bkl_line path o1 o2 committer).length = 0 := by
      unfold bkl_line
      simp only [List.length_append, List.length_cons]
      omega
    omega
  · intro h
    unfold bkl_append
    rw [if_pos h]

/-- Claim C9 (amended): over a file content that ends with LF, every line
either reader feeds to the callback carries its trailing LF.  (As
originally stated, over every content, the claim fails: a file without a
final LF makes both readers emit its last line unterminated — see the
counterexample.) -/
theorem claim9_lines_lf_terminated {σ : Type} (f : List Char → σ → Int × σ)
    (hf : ∀ l s, (f l s).1 = 0) (t : List Char) (s : σ) :
    (∀ l ∈ (bkl_parse_file (some (t ++ ['\n'])) f s).2.2, ∃ m, l = m ++ ['\n'])
    ∧ ∀ l ∈ (bkl_parse_file_reverse (some (t ++ ['\n'])) f s).2.2.2,
        ∃ m, l = m ++ ['\n'] := by
  have h1 : bkl_parse_file (some (t ++ ['\n'])) f s
      = (0, runf f (forwardLines (t ++ ['\n'])) s, forwardLines (t ++ ['\n'])) :=
    fwdLoop_spec f hf (t ++ ['\n']).length (t ++ ['\n']) s le_rfl
  have h2 : bkl_parse_file_reverse (some (t ++ ['\n'])) f s
      = (0, revExpectL (t ++ ['\n']), runf f (revExpectE (t ++ ['\n'])) s,
        revExpectE (t ++ ['\n'])) :=
    bkl_parse_file_reverse_sized_spec f hf (t ++ ['\n']) BUFSIZ (by decide)
      (Or.inl (by decide)) s
  rw [h1, h2]
  refine ⟨forwardLines_lf t, ?_⟩
  intro l hl
  exact forwardLines_lf t l (revExpectE_sub _ l hl)

/-- Witness for C9: the content `a LF`. -/
theorem claim9_lines_lf_terminated_witness :
    (∀ l ∈ (bkl_parse_file (some (['a'] ++ ['\n'])) cbCount 0).2.2, ∃ m, l = m ++ ['\n'])
    ∧ ∀ l ∈ (bkl_parse_file_reverse (some (['a'] ++ ['\n'])) cbCount 0).2.2.2,
        ∃ m, l = m ++ ['\n'] :=
  claim9_lines_lf_terminated cbCount (fun _ _ => rfl) ['a'] 0

/-- Counterexample to C9 as stated: on the content `a` (no final LF) both
readers feed the callback the line `a`, which carries no trailing LF. -/
theorem claim9_counterexample :
    (bkl_parse_file (some ['a']) cbCount 0).2.2 = [['a']]
    ∧ (bkl_parse_file_reverse (some ['a']) cbCount 0).2.2.2 = [['a']]
    ∧ ¬ ∃ m, (['a'] : List Char) = m ++ ['\n'] := by
  refine ⟨by decide, by decide, ?_⟩
  rintro ⟨m, hm⟩
  rcases m with - | ⟨y, ys⟩
  · simp at hm
  · simp at hm

/-- Claim C5 (amended): on a line whose identifier and email segments are
well formed, the decoder succeeds if and only if `parse_timestamp`
(`strtoumax`, which itself skips leading whitespace and accepts an optional
sign before its digit run) yields a nonzero value and, at the end pointer
of that digit run, there follow one space, a sign character and at least
four decimal digits.  (The original claim — the decimal timestamp starts
exactly two characters after the `>` and is followed by exactly four
digits — fails: see the counterexample with a fifth timezone digit.) -/
theorem claim5_timestamp_gate
    (o1 o2 : List Nat) (ident T : List Char)
    (ho1 : o1.length = GIT_SHA1_RAWSZ) (ho1b : ∀ b ∈ o1, b < 256)
    (ho2 : o2.length = GIT_SHA1_RAWSZ) (ho2b : ∀ b ∈ o2, b < 256)
    (hid : ∀ x ∈ ident, ¬ x = '>' ∧ ¬ x = NUL)
    (htl : ∃ t, T = t ++ ['\n'])
    (sb : List Char)
    (hsb : sb = oid_to_hex o1 ++ ' ' :: (oid_to_hex o2 ++ ' ' :: (ident ++ '>' :: ' ' :: T))) :
    ((bkl_parse_entry sb).isSome = true ↔
      (¬ (strtoumax10 sb (82 + ident.length + 2)).1 = 0
        ∧ getC sb (strtoumax10 sb (82 + ident.length + 2)).2 = ' '
        ∧ (getC sb ((strtoumax10 sb (82 + ident.length + 2)).2 + 1) = '+'
            ∨ getC sb ((strtoumax10 sb (82 + ident.length + 2)).2 + 1) = '-')
        ∧ isDigitC (getC sb ((strtoumax10 sb (82 + ident.length + 2)).2 + 2)) = true
        ∧ isDigitC (getC sb ((strtoumax10 sb (82 + ident.length + 2)).2 + 3)) = true
        ∧ isDigitC (getC sb ((strtoumax10 sb (82 + ident.length + 2)).2 + 4)) = true
        ∧ isDigitC (getC sb ((strtoumax10 sb (82 + ident.length + 2)).2 + 5)) = true)) := by
  obtain ⟨ha, hb, hc, hd, he, hf, hdrop82, hg, hlen⟩ :=
    line_decomp_facts o1 o2 ident T ho1 ho1b ho2 ho2b hid sb hsb
  obtain ⟨t, ht⟩ := htl
  have hsbS : sb = (oid_to_hex o1 ++ ' ' :: (oid_to_hex o2 ++ ' ' ::
      (ident ++ '>' :: ' ' :: t))) ++ ['\n'] := by
    rw [hsb, ht]
    simp
  have hlast : getC sb (sb.length - 1) = '\n' := by
    rw [hsbS]
    exact getC_snoc_last _ _
  unfold bkl_parse_entry
  dsimp only
  rw [if_neg (show ¬ sb.length = 0 by omega)]
  rw [if_neg (not_not_intro hlast)]
  split
  next heq =>
    rw [ha] at heq
    simp at heq
  next old heq =>
    rw [ha] at heq
    injection heq with heq2
    subst heq2
    rw [if_neg (not_not_intro hb)]
    split
    next heq =>
      rw [hc] at heq
      simp at heq
    next new heq =>
      rw [hc] at heq
      injection heq with heq2
      subst heq2
      rw [if_neg (not_not_intro hd)]
      split
      next heq =>
        rw [he] at heq
        simp at heq
      next ee heq =>
        rw [he] at heq
        injection heq with heq2
        subst heq2
        rw [if_neg (not_not_intro hf)]
        by_cases h1 : (strtoumax10 sb (82 + ident.length + 2)).1 = 0
        · rw [if_pos h1]
          exact ⟨fun h => absurd h (by decide), fun h => absurd h1 h.1⟩
        · rw [if_neg h1]
          by_cases h2 : getC sb (strtoumax10 sb (82 + ident.length + 2)).2 = ' '
          · rw [if_neg (not_not_intro h2)]
            by_cases h3 : getC sb ((strtoumax10 sb (82 + ident.length + 2)).2 + 1) = '+'
                ∨ getC sb ((strtoumax10 sb (82 + ident.length + 2)).2 + 1) = '-'
            · rw [if_neg (not_not_intro h3)]
              by_cases h4 :
                  isDigitC (getC sb ((strtoumax10 sb (82 + ident.length + 2)).2 + 2)) = true
                  ∧ isDigitC (getC sb ((strtoumax10 sb (82 + ident.length + 2)).2 + 3)) = true
                  ∧ isDigitC (getC sb ((strtoumax10 sb (82 + ident.length + 2)).2 + 4)) = true
                  ∧ isDigitC (getC sb ((strtoumax10 sb (82 + ident.length + 2)).2 + 5)) = true
              · rw [if_neg (not_not_intro h4)]
                exact ⟨fun _ => ⟨h1, h2, h3, h4.1, h4.2.1, h4.2.2.1, h4.2.2.2⟩, fun _ => rfl⟩
              · rw [if_pos h4]
                exact ⟨fun h => absurd h (by decide), fun h => absurd h.2.2.2 h4⟩
            · rw [if_pos h3]
              exact ⟨fun h => absurd h (by decide), fun h => absurd h.2.2.1 h3⟩
          · rw [if_pos h2]
            exact ⟨fun h => absurd h (by decide), fun h => absurd h.2.1 h2⟩

/-- Witness for C5: a well-formed concrete line decodes successfully via
the gate's right-to-left direction, its condition checked by evaluation. -/
theorem claim5_timestamp_gate_witness : (bkl_parse_entry lineOkW).isSome = true := by
  have h := claim5_timestamp_gate o1W o2W identW ("11 +0000\tp\n".toList)
    (by decide) (by decide) (by decide) (by decide) (by decide)
    ⟨"11 +0000\tp".toList, by decide⟩ lineOkW rfl
  exact h.mpr (by decide)

/-- Counterexample to C5 as stated: a line with five digits after the
timezone sign decodes successfully, yet the specification's wording
(exactly four digits) rejects it. -/
theorem claim5_counterexample :
    (bkl_parse_entry lineTz5).isSome = true ∧ specTsTzOk lineTz5 = false := by
  decide

/-- Claim C10: every successful decode mutates the line buffer in place —
the byte after the email's `>` (a space on entry) and the final LF are
overwritten with NUL — and the returned `email` and `path` are the C
strings read at offsets of that mutated buffer, which therefore no longer
holds the original bytes. -/
theorem claim10_in_place_mutation (sb r : List Char) (e : bkl_entry)
    (h : bkl_parse_entry sb = some (r, e)) :
    ∃ ee, strchrIdx sb '>' (2 * GIT_SHA1_HEXSZ + 2) = some ee
      ∧ r = (sb.set (ee + 1) NUL).set (sb.length - 1) NUL
      ∧ getC sb (ee + 1) = ' ' ∧ getC r (ee + 1) = NUL
      ∧ getC sb (sb.length - 1) = '\n' ∧ getC r (sb.length - 1) = NUL
      ∧ e.email = cstringAt r (2 * GIT_SHA1_HEXSZ + 2)
      ∧ (∃ m2, e.path = cstringAt r m2)
      ∧ ¬ r = sb := by
  unfold bkl_parse_entry at h
  dsimp only at h
  by_cases hn0 : sb.length = 0
  · rw [if_pos hn0] at h
    exact Option.noConfusion h
  rw [if_neg hn0] at h
  by_cases hlfc : ¬ getC sb (sb.length - 1) = '\n'
  · rw [if_pos hlfc] at h
    exact Option.noConfusion h
  rw [if_neg hlfc] at h
  rcases heq0 : hex_to_bytes sb GIT_SHA1_RAWSZ with - | old
  · rw [heq0] at h
    exact Option.noConfusion h
  rw [heq0] at h
  dsimp only at h
  by_cases hsp40 : ¬ getC sb GIT_SHA1_HEXSZ = ' '
  · rw [if_pos hsp40] at h
    exact Option.noConfusion h
  rw [if_neg hsp40] at h
  rcases heq2 : hex_to_bytes (sb.drop (GIT_SHA1_HEXSZ + 1)) GIT_SHA1_RAWSZ with - | new
  · rw [heq2] at h
    exact Option.noConfusion h
  rw [heq2] at h
  dsimp only at h
  by_cases hsp81 : ¬ getC sb (2 * GIT_SHA1_HEXSZ + 1) = ' '
  · rw [if_pos hsp81] at h
    exact Option.noConfusion h
  rw [if_neg hsp81] at h
  rcases heqe : strchrIdx sb '>' (2 * GIT_SHA1_HEXSZ + 2) with - | ee
  · rw [heqe] at h
    exact Option.noConfusion h
  rw [heqe] at h
  dsimp only at h
  by_cases hspee : ¬ getC sb (ee + 1) = ' '
  · rw [if_pos hspee] at h
    exact Option.noConfusion h
  rw [if_neg hspee] at h
  by_cases hts : (strtoumax10 sb (ee + 2)).1 = 0
  · rw [if_pos hts] at h
    exact Option.noConfusion h
  rw [if_neg hts] at h
  by_cases hspm : ¬ getC sb (strtoumax10 sb (ee + 2)).2 = ' '
  · rw [if_pos hspm] at h
    exact Option.noConfusion h
  rw [if_neg hspm] at h
  by_cases hor : ¬ (getC sb ((strtoumax10 sb (ee + 2)).2 + 1) = '+'
      ∨ getC sb ((strtoumax10 sb (ee + 2)).2 + 1) = '-')
  · rw [if_pos hor] at h
    exact Option.noConfusion h
  rw [if_neg hor] at h
  by_cases hdg : ¬ (isDigitC (getC sb ((strtoumax10 sb (ee + 2)).2 + 2)) = true
      ∧ isDigitC (getC sb ((strtoumax10 sb (ee + 2)).2 + 3)) = true
      ∧ isDigitC (getC sb ((strtoumax10 sb (ee + 2)).2 + 4)) = true
      ∧ isDigitC (getC sb ((strtoumax10 sb (ee + 2)).2 + 5)) = true)
  · rw [if_pos hdg] at h
    exact Option.noConfusion h
  rw [if_neg hdg] at h
  injection h with hpair
  rw [Prod.mk.injEq] at hpair
  obtain ⟨hr2, he2⟩ := hpair
  have hr : r = (sb.set (ee + 1) NUL).set (sb.length - 1) NUL := hr2.symm
  have hsp : getC sb (ee + 1) = ' ' := not_not.mp hspee
  have hlf2 : getC sb (sb.length - 1) = '\n' := not_not.mp hlfc
  have hlt : ee + 1 < sb.length := by
    by_contra hge
    rw [getC_of_len_le _ _ (by omega)] at hsp
    exact absurd hsp (by decide)
  have hne_idx : ¬ (ee + 1 = sb.length - 1) := by
    intro hh
    rw [hh, hlf2] at hsp
    exact absurd hsp (by decide)
  have hgr : getC r (ee + 1) = NUL := by
    rw [hr, getC_set_ne _ _ _ _ hne_idx]
    exact getC_set_self _ _ _ hlt
  have hgr2 : getC r (sb.length - 1) = NUL := by
    rw [hr]
    refine getC_set_self _ _ _ ?_
    rw [List.length_set]
    omega
  refine ⟨ee, rfl, hr, hsp, hgr, hlf2, hgr2, ?_, ?_, ?_⟩
  · rw [← he2, ← hr2]
  · exact ⟨_, by rw [← he2, ← hr2]⟩
  · intro hrs
    rw [hrs] at hgr
    rw [hgr] at hsp
    exact absurd hsp (by decide)

/-- Witness for C10: a concrete successful decode, with the returned buffer
differing from the input line. -/
theorem claim10_in_place_mutation_witness :
    ∃ r e, bkl_parse_entry lineOkW = some (r, e) ∧ ¬ r = lineOkW := by
  have h : (bkl_parse_entry lineOkW).isSome = true := by decide
  obtain ⟨⟨r, e⟩, hre⟩ := Option.isSome_iff_exists.mp h
  obtain ⟨ee, -, -, -, -, -, -, -, -, hner⟩ := claim10_in_place_mutation lineOkW r e hre
  exact ⟨r, e, hre, hner⟩

/-- Claim C3: round trip.  For an entry with distinct, valid-width (20-byte)
identifiers, a well-formed actor string (name-and-email segment free of `>`
and NUL, then a bracketed-email close, a space, a nonzero decimal timestamp
below 2^64, a space, a sign and four timezone digits) and a NUL-free path,
decoding the line `bkl_append` produces recovers the identifiers, the
timestamp, the signed timezone value and the path. -/
theorem claim3_round_trip
    (o1 o2 : List Nat) (ident : List Char) (ts : Nat) (sgn d1 d2 d3 d4 : Char)
    (path : List Char)
    (hne : ¬ o1 = o2)
    (ho1 : o1.length = GIT_SHA1_RAWSZ) (ho1b : ∀ b ∈ o1, b < 256)
    (ho2 : o2.length = GIT_SHA1_RAWSZ) (ho2b : ∀ b ∈ o2, b < 256)
    (hid : ∀ x ∈ ident, ¬ x = '>' ∧ ¬ x = NUL)
    (hts0 : ¬ ts = 0) (htsB : ts < UINTMAX_BOUND)
    (hsgn : sgn = '+' ∨ sgn = '-')
    (hd1 : isDigitC d1 = true) (hd2 : isDigitC d2 = true)
    (hd3 : isDigitC d3 = true) (hd4 : isDigitC d4 = true)
    (hpnul : NUL ∉ path) :
    ∃ buf e, bkl_parse_entry (bkl_append [] path o1 o2
        (ident ++ '>' :: ' ' :: (natToDigits ts ++ ' ' :: sgn :: [d1, d2, d3, d4])))
        = some (buf, e)
      ∧ e.old_oid = o1 ∧ e.new_oid = o2 ∧ e.timestamp = ts
      ∧ e.tz = (if sgn = '-' then -(natOfDigits [d1, d2, d3, d4] : Int)
                else (natOfDigits [d1, d2, d3, d4] : Int))
      ∧ e.path = path := by
  have hline : bkl_append [] path o1 o2
      (ident ++ '>' :: ' ' :: (natToDigits ts ++ ' ' :: sgn :: [d1, d2, d3, d4]))
      = oid_to_hex o1 ++ ' ' :: (oid_to_hex o2 ++ ' ' :: (ident ++ '>' :: ' ' ::
        (natToDigits ts ++ ' ' :: sgn :: d1 :: d2 :: d3 :: d4 ::
          ('\t' :: (path ++ ['\n']))))) := by
    unfold bkl_append
    rw [if_neg hne]
    unfold bkl_line
    simp
  obtain ⟨-, -, -, -, -, -, -, hg, -⟩ :=
    line_decomp_facts o1 o2 ident
      (natToDigits ts ++ ' ' :: sgn :: d1 :: d2 :: d3 :: d4 :: ('\t' :: (path ++ ['\n'])))
      ho1 ho1b ho2 ho2b hid _ hline
  have hdec := bkl_parse_entry_eval o1 o2 ident (natToDigits ts) sgn d1 d2 d3 d4
    ('\t' :: (path ++ ['\n'])) ho1 ho1b ho2 ho2b hid
    (natToDigits_digits ts) (natToDigits_ne_nil ts)
    (by rw [natOfDigits_natToDigits]; exact hts0)
    (by rw [natOfDigits_natToDigits]; exact htsB)
    hsgn hd1 hd2 hd3 hd4 ⟨'\t' :: path, by simp⟩ (show ¬ isDigitC '\t' = true by decide)
    _ hline
  refine ⟨_, _, hdec, rfl, rfl, natOfDigits_natToDigits ts, rfl, ?_⟩
  show cstringAt _ (if ¬ getC ('\t' :: (path ++ ['\n'])) 0 = '\t'
      then 84 + ident.length + (natToDigits ts).length + 6
      else 84 + ident.length + (natToDigits ts).length + 7) = path
  rw [if_neg (not_not_intro (show getC ('\t' :: (path ++ ['\n'])) 0 = '\t' by rfl))]
  have htlpos : 0 < (natToDigits ts).length :=
    List.length_pos.mpr (natToDigits_ne_nil ts)
  refine cstringAt_mutated _ _ _ path (by omega) ?_ hpnul
  have h7 : 84 + ident.length + (natToDigits ts).length + 7
      = 6 + (((natToDigits ts).length + 1) + (84 + ident.length)) := by omega
  rw [h7, drop_add, drop_add, hg, drop_append_cons]
  rfl

/-- Witness for C3: a concrete entry (timestamp 11, timezone +0700,
path `p`) decodes back to its own fields. -/
theorem claim3_round_trip_witness :
    ∃ buf e, bkl_parse_entry (bkl_append [] ['p'] o1W o2W
        (identW ++ '>' :: ' ' :: (natToDigits 11 ++ ' ' :: '+' :: ['0', '7', '0', '0'])))
        = some (buf, e)
      ∧ e.old_oid = o1W ∧ e.new_oid = o2W ∧ e.timestamp = 11
      ∧ e.tz = (if '+' = '-' then -(natOfDigits ['0', '7', '0', '0'] : Int)
                else (natOfDigits ['0', '7', '0', '0'] : Int))
      ∧ e.path = ['p'] :=
  claim3_round_trip o1W o2W identW 11 '+' '0' '7' '0' '0' ['p']
    (by decide) (by decide) (by decide) (by decide) (by decide) (by decide)
    (by decide) (by decide) (Or.inl rfl)
    (by decide) (by decide) (by decide) (by decide) (by decide)

/-- Claim C6 (amended): for a record whose path neither starts with a
decimal digit nor with a tab, the tab form and the legacy (no-tab) form
decode to the same fields — the path begins right after the tab in the
first form and right after the fourth timezone digit in the second.  (As
originally stated — for every line passing the grammar — the claim fails:
when the path itself starts with a digit, the legacy form's `strtol` run
absorbs it and the two forms decode to different timezone values; see the
counterexample.) -/
theorem claim6_tail_compat
    (o1 o2 : List Nat) (ident tsd : List Char) (sgn d1 d2 d3 d4 : Char)
    (path : List Char)
    (ho1 : o1.length = GIT_SHA1_RAWSZ) (ho1b : ∀ b ∈ o1, b < 256)
    (ho2 : o2.length = GIT_SHA1_RAWSZ) (ho2b : ∀ b ∈ o2, b < 256)
    (hid : ∀ x ∈ ident, ¬ x = '>' ∧ ¬ x = NUL)
    (htsd : ∀ c ∈ tsd, isDigitC c = true) (htsdne : tsd ≠ [])
    (hts0 : ¬ natOfDigits tsd = 0) (htsB : natOfDigits tsd < UINTMAX_BOUND)
    (hsgn : sgn = '+' ∨ sgn = '-')
    (hd1 : isDigitC d1 = true) (hd2 : isDigitC d2 = true)
    (hd3 : isDigitC d3 = true) (hd4 : isDigitC d4 = true)
    (hpnul : NUL ∉ path)
    (hpd : ¬ isDigitC (getC (path ++ ['\n']) 0) = true)
    (hpt : ¬ getC (path ++ ['\n']) 0 = '\t') :
    ∃ bufT eT bufL eL,
      bkl_parse_entry (oid_to_hex o1 ++ ' ' :: (oid_to_hex o2 ++ ' ' ::
          (ident ++ '>' :: ' ' :: (tsd ++ ' ' :: sgn :: d1 :: d2 :: d3 :: d4 ::
            ('\t' :: (path ++ ['\n'])))))) = some (bufT, eT)
      ∧ bkl_parse_entry (oid_to_hex o1 ++ ' ' :: (oid_to_hex o2 ++ ' ' ::
          (ident ++ '>' :: ' ' :: (tsd ++ ' ' :: sgn :: d1 :: d2 :: d3 :: d4 ::
            (path ++ ['\n']))))) = some (bufL, eL)
      ∧ eT.path = path ∧ eL.path = path
      ∧ eT.old_oid = eL.old_oid ∧ eT.new_oid = eL.new_oid ∧ eT.email = eL.email
      ∧ eT.timestamp = eL.timestamp ∧ eT.tz = eL.tz := by
  have htlpos : 0 < tsd.length := List.length_pos.mpr htsdne
  obtain ⟨-, -, -, -, -, -, -, hgT, -⟩ :=
    line_decomp_facts o1 o2 ident
      (tsd ++ ' ' :: sgn :: d1 :: d2 :: d3 :: d4 :: ('\t' :: (path ++ ['\n'])))
      ho1 ho1b ho2 ho2b hid _ rfl
  obtain ⟨-, -, -, -, -, -, -, hgL, -⟩ :=
    line_decomp_facts o1 o2 ident
      (tsd ++ ' ' :: sgn :: d1 :: d2 :: d3 :: d4 :: (path ++ ['\n']))
      ho1 ho1b ho2 ho2b hid _ rfl
  have hdecT := bkl_parse_entry_eval o1 o2 ident tsd sgn d1 d2 d3 d4
    ('\t' :: (path ++ ['\n'])) ho1 ho1b ho2 ho2b hid htsd htsdne hts0 htsB
    hsgn hd1 hd2 hd3 hd4 ⟨'\t' :: path, by simp⟩ (show ¬ isDigitC '\t' = true by decide) _ rfl
  have hdecL := bkl_parse_entry_eval o1 o2 ident tsd sgn d1 d2 d3 d4
    (path ++ ['\n']) ho1 ho1b ho2 ho2b hid htsd htsdne hts0 htsB
    hsgn hd1 hd2 hd3 hd4 ⟨path, rfl⟩ hpd _ rfl
  refine ⟨_, _, _, _, hdecT, hdecL, ?_, ?_, rfl, rfl, rfl, rfl, rfl⟩
  · show cstringAt _ (if ¬ getC ('\t' :: (path ++ ['\n'])) 0 = '\t'
        then 84 + ident.length + tsd.length + 6
        else 84 + ident.length + tsd.length + 7) = path
    rw [if_neg (not_not_intro (show getC ('\t' :: (path ++ ['\n'])) 0 = '\t' by rfl))]
    refine cstringAt_mutated _ _ _ path (by omega) ?_ hpnul
    have h7 : 84 + ident.length + tsd.length + 7
        = 6 + ((tsd.length + 1) + (84 + ident.length)) := by omega
    rw [h7, drop_add, drop_add, hgT, drop_append_cons]
    rfl
  · show cstringAt _ (if ¬ getC (path ++ ['\n']) 0 = '\t'
        then 84 + ident.length + tsd.length + 6
        else 84 + ident.length + tsd.length + 7) = path
    rw [if_pos hpt]
    refine cstringAt_mutated _ _ _ path (by omega) ?_ hpnul
    have h6 : 84 + ident.length + tsd.length + 6
        = 5 + ((tsd.length + 1) + (84 + ident.length)) := by omega
    rw [h6, drop_add, drop_add, hgL, drop_append_cons]
    rfl

/-- Witness for C6: timestamp digits `11`, timezone `+0000`, path `p`. -/
theorem claim6_tail_compat_witness :
    ∃ bufT eT bufL eL,
      bkl_parse_entry (oid_to_hex o1W ++ ' ' :: (oid_to_hex o2W ++ ' ' ::
          (identW ++ '>' :: ' ' :: (['1', '1'] ++ ' ' :: '+' :: '0' :: '0' :: '0' :: '0' ::
            ('\t' :: (['p'] ++ ['\n'])))))) = some (bufT, eT)
      ∧ bkl_parse_entry (oid_to_hex o1W ++ ' ' :: (oid_to_hex o2W ++ ' ' ::
          (identW ++ '>' :: ' ' :: (['1', '1'] ++ ' ' :: '+' :: '0' :: '0' :: '0' :: '0' ::
            (['p'] ++ ['\n']))))) = some (bufL, eL)
      ∧ eT.path = ['p'] ∧ eL.path = ['p']
      ∧ eT.old_oid = eL.old_oid ∧ eT.new_oid = eL.new_oid ∧ eT.email = eL.email
      ∧ eT.timestamp = eL.timestamp ∧ eT.tz = eL.tz :=
  claim6_tail_compat o1W o2W identW ['1', '1'] '+' '0' '0' '0' '0' ['p']
    (by decide) (by decide) (by decide) (by decide) (by decide) (by decide)
    (by decide) (by decide) (by decide) (Or.inl rfl)
    (by decide) (by decide) (by decide) (by decide)
    (by decide) (by decide) (by decide)

/-- Counterexample to C6 as stated: with the path `5p` the tab form and the
legacy form both recover the path, but decode to different timezone values
(+0000 versus +00005, clipped at the run of digits), so the two forms do
not differ only in where the path substring starts. -/
theorem claim6_counterexample :
    (bkl_parse_entry lineTabW).map (fun x => x.2.path) = some ['5', 'p']
    ∧ (bkl_parse_entry lineLegW).map (fun x => x.2.path) = some ['5', 'p']
    ∧ ¬ (bkl_parse_entry lineTabW).map (fun x => x.2.tz)
        = (bkl_parse_entry lineLegW).map (fun x => x.2.tz) := by
  decide

/-- Claim C1: order preservation.  Over a log built by appending the
encoded entries in order (each a real transition, with LF-free path and
committer string), forward iteration feeds a never-stopping callback
exactly the encoded lines in order, reverse iteration feeds exactly the
reversed sequence, and the forward list reversed equals the reverse list;
both runs return success. -/
theorem claim1_order_preservation {σ : Type} (f : List Char → σ → Int × σ)
    (hf : ∀ l s, (f l s).1 = 0) (es : List append_req)
    (hne : ∀ e ∈ es, ¬ e.from_oid = e.to_oid)
    (hlf : ∀ e ∈ es, '\n' ∉ e.path ∧ '\n' ∉ e.committer) (s1 s2 : σ) :
    (bkl_parse_file (some (appendEntries es)) f s1).1 = 0
    ∧ (bkl_parse_file_reverse (some (appendEntries es)) f s2).1 = 0
    ∧ (bkl_parse_file (some (appendEntries es)) f s1).2.2 = linesOf es
    ∧ (bkl_parse_file_reverse (some (appendEntries es)) f s2).2.2.2 = (linesOf es).reverse
    ∧ ((bkl_parse_file (some (appendEntries es)) f s1).2.2).reverse
      = (bkl_parse_file_reverse (some (appendEntries es)) f s2).2.2.2 := by
  have hconcat : appendEntries es = flatLines (linesOf es) := appendEntries_eq es hne
  have hshape : ∀ l ∈ linesOf es, ∃ m, l = m ++ ['\n'] ∧ '\n' ∉ m := by
    intro l hl
    obtain ⟨e, he, rfl⟩ := List.mem_map.mp hl
    exact bkl_line_shape e.path e.from_oid e.to_oid e.committer (hlf e he).1 (hlf e he).2
  have hfwd : forwardLines (appendEntries es) = linesOf es := by
    rw [hconcat]
    exact forwardLines_flat _ hshape
  have hhead : ¬ getC (appendEntries es) 0 = '\n' := by
    rw [hconcat]
    cases es with
    | nil => decide
    | cons e es2 =>
      show ¬ getC (bkl_line e.path e.from_oid e.to_oid e.committer
        ++ flatLines (linesOf es2)) 0 = '\n'
      have hpos : 0 < (bkl_line e.path e.from_oid e.to_oid e.committer).length := by
        unfold bkl_line
        simp only [List.length_append, List.length_cons]
        omega
      rw [getC_append_left _ _ 0 hpos]
      exact bkl_line_head e.path e.from_oid e.to_oid e.committer
  have hrev := revExpect_no_lf (appendEntries es) hhead
  have h1 : bkl_parse_file (some (appendEntries es)) f s1
      = (0, runf f (forwardLines (appendEntries es)) s1, forwardLines (appendEntries es)) :=
    fwdLoop_spec f hf (appendEntries es).length (appendEntries es) s1 le_rfl
  have h2 : bkl_parse_file_reverse (some (appendEntries es)) f s2
      = (0, revExpectL (appendEntries es), runf f (revExpectE (appendEntries es)) s2,
        revExpectE (appendEntries es)) :=
    bkl_parse_file_reverse_sized_spec f hf (appendEntries es) BUFSIZ (by decide)
      (Or.inl (by decide)) s2
  rw [h1, h2]
  refine ⟨rfl, rfl, hfwd, ?_, ?_⟩
  · show revExpectE (appendEntries es) = (linesOf es).reverse
    rw [hrev.1, hfwd]
  · show (forwardLines (appendEntries es)).reverse = revExpectE (appendEntries es)
    rw [hrev.1]

/-- Witness for C1: a two-record log, forward lines `[r1, r2]`, reverse
lines `[r2, r1]`. -/
theorem claim1_order_preservation_witness :
    (bkl_parse_file (some (appendEntries [reqW1, reqW2])) cbCount 0).1 = 0
    ∧ (bkl_parse_file_reverse (some (appendEntries [reqW1, reqW2])) cbCount 0).1 = 0
    ∧ (bkl_parse_file (some (appendEntries [reqW1, reqW2])) cbCount 0).2.2
        = linesOf [reqW1, reqW2]
    ∧ (bkl_parse_file_reverse (some (appendEntries [reqW1, reqW2])) cbCount 0).2.2.2
        = (linesOf [reqW1, reqW2]).reverse
    ∧ ((bkl_parse_file (some (appendEntries [reqW1, reqW2])) cbCount 0).2.2).reverse
        = (bkl_parse_file_reverse (some (appendEntries [reqW1, reqW2])) cbCount 0).2.2.2 :=
  claim1_order_preservation cbCount (fun _ _ => rfl) [reqW1, reqW2]
    (by decide) (by decide) 0 0

end BackupLog
